import Mathlib

/-!
Verification development for the clipboard-history core
(`src/src-tauri/src/clipboard_manager.rs`).

The Rust code is shallowly embedded: pure functions become Lean functions,
the `ClipboardManager` struct becomes a Lean structure, mutation becomes
explicit state passing.  External collaborators are modelled at their
interface: the PNG encoder's outcome is an oracle argument
(`enc : Option String`), and the fresh-identity sources (`Uuid::new_v4`,
`Utc::now`) are modelled by a monotone counter carried in the manager.
A Rust `panic!`/`unwrap` failure is the `PanicOr.panic` outcome; a panic
aborts the process, so panicking calls produce no successor state.
-/

/-- `ClipboardContent` from the source: text, or a base64 PNG image. -/
inductive ClipboardContent where
  | text (s : String)
  | image (base64 : String) (width : Nat) (height : Nat)
deriving DecidableEq

/-- `ClipboardItem` from the source.  `id` and `timestamp` are `Nat`
(the UUID v4 and UTC capture time are modelled as values drawn from the
manager's fresh counter). -/
structure ClipboardItem where
  id : Nat
  content : ClipboardContent
  timestamp : Nat
  pinned : Bool
  preview : String
deriving DecidableEq

/-- `ClipboardManager` state from the source, plus `counter`, the model of
the fresh id/timestamp source. -/
structure ClipboardManager where
  history : List ClipboardItem
  last_pasted_text : Option String
  last_pasted_image_hash : Option Nat
  last_added_text_hash : Option Nat
  counter : Nat
deriving DecidableEq

/-- Outcome of a call that may panic (a Rust `unwrap` failure). -/
inductive PanicOr (α : Type) where
  | panic : PanicOr α
  | ok : α → PanicOr α
deriving DecidableEq

/-- `MAX_HISTORY_SIZE` from the source. -/
def MAX_HISTORY_SIZE : Nat := 50

/-- UTF-8 byte length of a character list (Rust `str::len` counts bytes). -/
def utf8Len : List Char → Nat
  | [] => 0
  | c :: cs => c.utf8Size + utf8Len cs

/-- Model of the Rust byte slice `&s[..n]`: the characters occupying the
first `n` bytes, or `none` (a panic) when byte `n` is not a character
boundary or `n` exceeds the byte length. -/
def takeBytes : List Char → Nat → Option (List Char)
  | _, 0 => some []
  | [], _ + 1 => none
  | c :: cs, n + 1 =>
      if c.utf8Size ≤ n + 1 then (takeBytes cs (n + 1 - c.utf8Size)).map (c :: ·)
      else none

/-- `leadsWith pat l` is true when `l` starts with `pat`. -/
def leadsWith : List Char → List Char → Bool
  | [], _ => true
  | _ :: _, [] => false
  | p :: ps, h :: t => p == h && leadsWith ps t

/-- `charsContains pat l` is true when `pat` occurs contiguously in `l`. -/
def charsContains (pat : List Char) : List Char → Bool
  | [] => leadsWith pat []
  | h :: t => leadsWith pat (h :: t) || charsContains pat t

/-- Model of Rust `str::contains` (substring search). -/
def strContains (hay pat : String) : Bool :=
  charsContains pat.data hay.data

/-- Model of the 64-bit content digest (`DefaultHasher`): an injective
encoding, since the digest is used purely for equality comparison
(spec glossary: "a fast, non-cryptographic digest used only for
equality/dedup comparisons"). -/
def encodeChars : List Char → Nat
  | [] => 0
  | c :: cs => (c.toNat + 1) + 2000000 * encodeChars cs

/-- Content hash of a text, as computed in `add_text`. -/
def textHash (s : String) : Nat := encodeChars s.data

/-- `ClipboardItem::new_text`.  `k` is the fresh id/timestamp.  Returns
`none` (a panic) when the preview byte slice `&text[..100]` hits a
non-boundary byte: the source tests `text.len() > 100` on the *byte*
length and slices at byte offset 100. -/
def newText (k : Nat) (text : String) : Option ClipboardItem :=
  if utf8Len text.data > 100 then
    match takeBytes text.data 100 with
    | none => none
    | some pre =>
        some { id := k, content := ClipboardContent.text text, timestamp := k,
               pinned := false, preview := String.mk pre ++ "..." }
  else
    some { id := k, content := ClipboardContent.text text, timestamp := k,
           pinned := false, preview := text }

/-- Does `new_text` succeed (no panic) on this text?  Captures the
byte-boundary condition of the preview slice. -/
def previewOk (text : String) : Bool :=
  if utf8Len text.data > 100 then (takeBytes text.data 100).isSome else true

/-- `ClipboardItem::new_image_with_hash`: the dedup hash is embedded into
the preview string `"Image (WxH) #hash"`. -/
def newImageWithHash (k : Nat) (b64 : String) (w h hash : Nat) : ClipboardItem :=
  { id := k, content := ClipboardContent.image b64 w h, timestamp := k,
    pinned := false,
    preview := "Image (" ++ Nat.repr w ++ "x" ++ Nat.repr h ++ ") #" ++ Nat.repr hash }

/-- Model of `text.trim().is_empty()`: the trimmed string is empty exactly
when every character is whitespace.  (Rust's `char::is_whitespace` is the
Unicode White_Space property; the model uses the ASCII whitespace set of
`Char.isWhitespace`, which agrees on all inputs the claims involve.) -/
def isBlank (s : String) : Bool := s.data.all Char.isWhitespace

/-- Non-pinned test used throughout the source (`|i| !i.pinned`). -/
def notPinned (i : ClipboardItem) : Bool := !i.pinned

/-- Model of `Iterator::position`: index of the first element satisfying
`p`. -/
def firstIdxWhere (p : ClipboardItem → Bool) : List ClipboardItem → Option Nat
  | [] => none
  | x :: xs => if p x then some 0 else (firstIdxWhere p xs).map (· + 1)

/-- Model of `Iterator::rposition`: index of the last element satisfying
`p`. -/
def lastIdxWhere (p : ClipboardItem → Bool) : List ClipboardItem → Option Nat
  | [] => none
  | x :: xs =>
      match lastIdxWhere p xs with
      | some i => some (i + 1)
      | none => if p x then some 0 else none

/-- Insertion position used by `insert_item`:
`self.history.iter().position(|i| !i.pinned).unwrap_or(0)`. -/
def insertPos (l : List ClipboardItem) : Nat :=
  (firstIdxWhere notPinned l).getD 0

/-- Model of `Vec::insert` at index `i` (here always `i ≤ l.length`). -/
def insertAt (l : List ClipboardItem) (i : Nat) (x : ClipboardItem) : List ClipboardItem :=
  l.take i ++ x :: l.drop i

/-- The trim loop of `insert_item`: while the total length exceeds
`MAX_HISTORY_SIZE`, remove the last non-pinned item; stop if none remains.
`fuel` bounds the iteration count (callers pass the list length, which
always suffices because every iteration removes one element). -/
def trimLoop : Nat → List ClipboardItem → List ClipboardItem
  | 0, l => l
  | fuel + 1, l =>
      if l.length > MAX_HISTORY_SIZE then
        match lastIdxWhere notPinned l with
        | some pos => trimLoop fuel (l.eraseIdx pos)
        | none => l
      else l

/-- `ClipboardManager::insert_item` acting on the history list. -/
def insertItem (l : List ClipboardItem) (x : ClipboardItem) : List ClipboardItem :=
  let l1 := insertAt l (insertPos l) x
  trimLoop l1.length l1

/-- `matches!(&item.content, ClipboardContent::Text(t) if t == &text)`. -/
def isTextEq (item : ClipboardItem) (text : String) : Bool :=
  match item.content with
  | ClipboardContent.text t => t = text
  | ClipboardContent.image _ _ _ => false

/-- Is the item an image? -/
def isImage (item : ClipboardItem) : Bool :=
  match item.content with
  | ClipboardContent.text _ => false
  | ClipboardContent.image _ _ _ => true

/-- `self.history.iter().find(|item| !item.pinned)`. -/
def firstNonPinned (l : List ClipboardItem) : Option ClipboardItem :=
  l.find? notPinned

/-- Index of the first non-pinned duplicate of `text`
(`position(|item| !item.pinned && matches!(... if t == &text))`). -/
def dupIdx (l : List ClipboardItem) (text : String) : Option Nat :=
  firstIdxWhere (fun item => notPinned item && isTextEq item text) l

/-- The accepting tail of `add_text`: remove a non-pinned duplicate,
record the hash, build the item (which may panic, see `newText`), insert. -/
def addTextAccept (m : ClipboardManager) (text : String) (text_hash : Nat) :
    PanicOr (Option ClipboardItem × ClipboardManager) :=
  let hist1 :=
    match dupIdx m.history text with
    | some pos => m.history.eraseIdx pos
    | none => m.history
  match newText m.counter text with
  | none => PanicOr.panic
  | some item =>
      PanicOr.ok (some item,
        { m with history := insertItem hist1 item,
                 last_added_text_hash := some text_hash,
                 counter := m.counter + 1 })

/-- `ClipboardManager::add_text`. -/
def addText (m : ClipboardManager) (text : String) :
    PanicOr (Option ClipboardItem × ClipboardManager) :=
  if isBlank text then PanicOr.ok (none, m)
  else
    let text_hash := textHash text
    if m.last_added_text_hash = some text_hash then PanicOr.ok (none, m)
    else if m.last_pasted_text = some text then
      PanicOr.ok (none, { m with last_pasted_text := none })
    else
      match firstNonPinned m.history with
      | some item =>
          if isTextEq item text then
            PanicOr.ok (none, { m with last_added_text_hash := some text_hash })
          else addTextAccept m text text_hash
      | none => addTextAccept m text text_hash

/-- The accepting tail of `add_image`: the base64 PNG encoding of the
pixels is the oracle `enc` (the image codec is an external collaborator);
`enc = none` models `img.write_to(..).is_err()`. -/
def addImageAccept (m : ClipboardManager) (w h hash : Nat) (enc : Option String) :
    PanicOr (Option ClipboardItem × ClipboardManager) :=
  match enc with
  | none => PanicOr.ok (none, m)
  | some b64 =>
      let item := newImageWithHash m.counter b64 w h hash
      PanicOr.ok (some item,
        { m with history := insertItem m.history item, counter := m.counter + 1 })

/-- `ClipboardManager::add_image`.  `bytes` are the raw RGBA pixels;
`RgbaImage::from_raw(w, h, bytes).unwrap()` panics when the buffer holds
fewer than `4*w*h` bytes. -/
def addImage (m : ClipboardManager) (bytes : List Nat) (w h hash : Nat)
    (enc : Option String) : PanicOr (Option ClipboardItem × ClipboardManager) :=
  if m.last_pasted_image_hash = some hash then
    PanicOr.ok (none, { m with last_pasted_image_hash := none })
  else
    let topReject :=
      match firstNonPinned m.history with
      | some item => isImage item && strContains item.preview ("#" ++ Nat.repr hash)
      | none => false
    if topReject then PanicOr.ok (none, m)
    else if bytes.length < 4 * w * h then PanicOr.panic
    else addImageAccept m w h hash enc

/-- `ClipboardManager::new`. -/
def ClipboardManager.new : ClipboardManager :=
  { history := [], last_pasted_text := none, last_pasted_image_hash := none,
    last_added_text_hash := none, counter := 0 }

/-- `ClipboardManager::remove_item` (`retain(|item| item.id != id)`). -/
def removeItem (m : ClipboardManager) (id : Nat) : ClipboardManager :=
  { m with history := m.history.filter (fun i => i.id ≠ id) }

/-- `ClipboardManager::clear` (`retain(|item| item.pinned)`). -/
def clear (m : ClipboardManager) : ClipboardManager :=
  { m with history := m.history.filter (fun i => i.pinned) }

/-- `toggle_pin` on the list: find the first item with this id, flip its
pinned flag in place, return the updated item. -/
def togglePinList (id : Nat) : List ClipboardItem → Option ClipboardItem × List ClipboardItem
  | [] => (none, [])
  | x :: xs =>
      if x.id = id then
        ((some { x with pinned := !x.pinned }), { x with pinned := !x.pinned } :: xs)
      else
        let r := togglePinList id xs
        (r.1, x :: r.2)

/-- `ClipboardManager::toggle_pin`. -/
def togglePin (m : ClipboardManager) (id : Nat) : Option ClipboardItem × ClipboardManager :=
  let r := togglePinList id m.history
  (r.1, { m with history := r.2 })

/-- The image-hash recovery of `mark_as_pasted`:
`item.preview.split('#').nth(1)` parsed as a number.  (Overflow of the
Rust `u64` parse is not modelled; previews produced by the program carry
genuine `u64` values.) -/
def previewHash (preview : String) : Option Nat :=
  match (preview.split (fun c => c = '#')).get? 1 with
  | some s => s.toNat?
  | none => none

/-- `ClipboardManager::mark_as_pasted`. -/
def markAsPasted (m : ClipboardManager) (item : ClipboardItem) : ClipboardManager :=
  match item.content with
  | ClipboardContent.text t =>
      { m with last_pasted_text := some t, last_pasted_image_hash := none }
  | ClipboardContent.image _ _ _ =>
      match previewHash item.preview with
      | some h => { m with last_pasted_image_hash := some h, last_pasted_text := none }
      | none => { m with last_pasted_text := none }

/-- `ClipboardManager::mark_text_as_pasted`. -/
def markTextAsPasted (m : ClipboardManager) (text : String) : ClipboardManager :=
  { m with last_pasted_text := some text, last_added_text_hash := some (textHash text) }

/-- State after an `add_text` call.  A panicking call aborts the process
and yields no successor, so it is modelled as the unchanged state, which
adds no new reachable states. -/
def addTextRun (m : ClipboardManager) (text : String) : ClipboardManager :=
  match addText m text with
  | PanicOr.ok p => p.2
  | PanicOr.panic => m

/-- State after an `add_image` call (same panic convention). -/
def addImageRun (m : ClipboardManager) (bytes : List Nat) (w h hash : Nat)
    (enc : Option String) : ClipboardManager :=
  match addImage m bytes w h hash enc with
  | PanicOr.ok p => p.2
  | PanicOr.panic => m

/-- Did `add_text` return a (new) item? -/
def acceptedText (m : ClipboardManager) (text : String) : Bool :=
  match addText m text with
  | PanicOr.ok (some _, _) => true
  | _ => false

/-- Did `add_text` return `None` (rejection, no panic)? -/
def rejectedText (m : ClipboardManager) (text : String) : Bool :=
  match addText m text with
  | PanicOr.ok (none, _) => true
  | _ => false

/-- Manager states reachable from `ClipboardManager::new` by the public
operations.  The image-encoder outcome `enc` is universally quantified,
covering every behaviour of the external codec. -/
inductive Reach : ClipboardManager → Prop
  | init : Reach ClipboardManager.new
  | rAddText (m : ClipboardManager) (t : String) : Reach m → Reach (addTextRun m t)
  | rAddImage (m : ClipboardManager) (bytes : List Nat) (w h hash : Nat)
      (enc : Option String) : Reach m → Reach (addImageRun m bytes w h hash enc)
  | rRemove (m : ClipboardManager) (id : Nat) : Reach m → Reach (removeItem m id)
  | rClear (m : ClipboardManager) : Reach m → Reach (clear m)
  | rToggle (m : ClipboardManager) (id : Nat) : Reach m → Reach (togglePin m id).2
  | rMarkPasted (m : ClipboardManager) (it : ClipboardItem) :
      Reach m → Reach (markAsPasted m it)
  | rMarkText (m : ClipboardManager) (t : String) : Reach m → Reach (markTextAsPasted m t)

/-- Like `Reach`, but `toggle_pin` may only pin: whenever the toggle finds
its target, the updated item it returns is pinned (so the target was
non-pinned).  Used for the amended dedup invariant (C1). -/
inductive ReachPinOnly : ClipboardManager → Prop
  | init : ReachPinOnly ClipboardManager.new
  | rAddText (m : ClipboardManager) (t : String) :
      ReachPinOnly m → ReachPinOnly (addTextRun m t)
  | rAddImage (m : ClipboardManager) (bytes : List Nat) (w h hash : Nat)
      (enc : Option String) : ReachPinOnly m → ReachPinOnly (addImageRun m bytes w h hash enc)
  | rRemove (m : ClipboardManager) (id : Nat) : ReachPinOnly m → ReachPinOnly (removeItem m id)
  | rClear (m : ClipboardManager) : ReachPinOnly m → ReachPinOnly (clear m)
  | rToggle (m : ClipboardManager) (id : Nat) :
      ReachPinOnly m →
      (∀ it, (togglePinList id m.history).1 = some it → it.pinned = true) →
      ReachPinOnly (togglePin m id).2
  | rMarkPasted (m : ClipboardManager) (it : ClipboardItem) :
      ReachPinOnly m → ReachPinOnly (markAsPasted m it)
  | rMarkText (m : ClipboardManager) (t : String) :
      ReachPinOnly m → ReachPinOnly (markTextAsPasted m t)

/-- The non-pinned items of a history, in order. -/
def nonPinnedList (l : List ClipboardItem) : List ClipboardItem :=
  l.filter notPinned

/-- The pinned items of a history, in order. -/
def pinnedList (l : List ClipboardItem) : List ClipboardItem :=
  l.filter (fun i => i.pinned)

/-- The text contents of the non-pinned items, in order. -/
def textOf (item : ClipboardItem) : Option String :=
  match item.content with
  | ClipboardContent.text t => some t
  | ClipboardContent.image _ _ _ => none

/-- Texts held by non-pinned items. -/
def textsNP (l : List ClipboardItem) : List String :=
  (nonPinnedList l).filterMap textOf

/-- The ids appearing in a history. -/
def idsOf (l : List ClipboardItem) : List Nat :=
  l.map (fun i => i.id)

/-- `u16::to_ne_bytes` on x86_64 (little-endian). -/
def u16NeBytes (x : Nat) : List Nat := [x % 256, x / 256 % 256]

/-- `i32::to_ne_bytes` on x86_64 (little-endian two's complement). -/
def i32NeBytes (v : Int) : List Nat :=
  let u := (v % (4294967296 : Int)).toNat
  [u % 256, u / 256 % 256, u / 65536 % 256, u / 16777216 % 256]

/-- `make_event` from `simulate_paste_uinput`: a 24-byte `input_event`
record — 16 zero bytes of timestamp, then type, code, value in native
(little-endian) order. -/
def makeEvent (type_ code : Nat) (value : Int) : List Nat :=
  List.replicate 16 0 ++ u16NeBytes type_ ++ u16NeBytes code ++ i32NeBytes value

/-- `EV_SYN` from the source. -/
def EV_SYN : Nat := 0x00

/-- `EV_KEY` from the source. -/
def EV_KEY : Nat := 0x01

/-- `SYN_REPORT` from the source. -/
def SYN_REPORT : Nat := 0x00

/-- `KEY_LEFTCTRL` from the source. -/
def KEY_LEFTCTRL : Nat := 29

/-- `KEY_V` from the source. -/
def KEY_V : Nat := 47

/-- The exact ordered event records written by `simulate_paste_uinput`:
press Ctrl, sync, press V, sync, release V, sync, release Ctrl, sync. -/
def pasteEvents : List (List Nat) :=
  [ makeEvent EV_KEY KEY_LEFTCTRL 1, makeEvent EV_SYN SYN_REPORT 0,
    makeEvent EV_KEY KEY_V 1, makeEvent EV_SYN SYN_REPORT 0,
    makeEvent EV_KEY KEY_V 0, makeEvent EV_SYN SYN_REPORT 0,
    makeEvent EV_KEY KEY_LEFTCTRL 0, makeEvent EV_SYN SYN_REPORT 0 ]

/-- Decode a little-endian `u16` from the first two bytes. -/
def decodeU16 (l : List Nat) : Nat := l.getD 0 0 + 256 * l.getD 1 0

/-- Decode a little-endian two's-complement `i32` from the first four
bytes. -/
def decodeI32 (l : List Nat) : Int :=
  let n := l.getD 0 0 + 256 * l.getD 1 0 + 65536 * l.getD 2 0 + 16777216 * l.getD 3 0
  if n < 2147483648 then (n : Int) else (n : Int) - 4294967296

/-- The item produced by the very first `add_text "a"` on a new manager. -/
def itemA : ClipboardItem :=
  { id := 0, content := ClipboardContent.text "a", timestamp := 0, pinned := false,
    preview := "a" }

/-- Concrete run: `add_text "a"` on a new manager. -/
def stA1 : ClipboardManager := addTextRun ClipboardManager.new "a"

/-- ... then `toggle_pin` on the `"a"` item (pins it). -/
def stA2 : ClipboardManager := (togglePin stA1 0).2

/-- ... then `add_text "b"`. -/
def stA3 : ClipboardManager := addTextRun stA2 "b"

/-- ... then `add_text "a"` again (accepted: the only `"a"` item is pinned). -/
def stA4 : ClipboardManager := addTextRun stA3 "a"

/-- ... then `toggle_pin` on the original `"a"` item again (unpins it),
leaving two non-pinned items that both hold the text `"a"`. -/
def stA5 : ClipboardManager := (togglePin stA4 0).2

/-- ... then `add_text "c"`, so that the burst-suppression hash no longer
matches `"a"`. -/
def stA6 : ClipboardManager := addTextRun stA5 "c"

/-- An image item whose embedded dedup hash is 123. -/
def imgItem123 : ClipboardItem := newImageWithHash 0 "b" 1 1 123

/-- A manager whose most-recent non-pinned item is `imgItem123`. -/
def mImg123 : ClipboardManager :=
  { history := [imgItem123], last_pasted_text := none, last_pasted_image_hash := none,
    last_added_text_hash := none, counter := 1 }

/-- A pinned text item, used to build all-pinned histories. -/
def pinnedItemX : ClipboardItem :=
  { id := 0, content := ClipboardContent.text "a", timestamp := 0, pinned := true,
    preview := "a" }

/-- A fresh non-pinned item to insert. -/
def freshItemY : ClipboardItem :=
  { id := 1, content := ClipboardContent.text "b", timestamp := 1, pinned := false,
    preview := "b" }

/-- Concrete run for the self-paste scenario: paste `itemA` back right
after it was ingested (`mark_as_pasted` as performed by `paste_item`). -/
def stB1 : ClipboardManager := markAsPasted stA1 itemA

/-- ... then the poller re-observes `"a"` (rejected by burst suppression,
which does not consume the paste suppression). -/
def stB2 : ClipboardManager := addTextRun stB1 "a"

/-- ... then an unrelated ingestion `"b"`. -/
def stB3 : ClipboardManager := addTextRun stB2 "b"

/-- 49 two-byte characters followed by one three-byte character:
101 bytes, so the preview slice at byte 100 splits the last character. -/
def bad51 : String := String.mk (List.replicate 49 'é' ++ ['€'])

/-- 51 two-byte characters: 102 bytes but only 51 characters. -/
def eta51 : String := String.mk (List.replicate 51 'é')

/-! ## Basic facts about item construction -/

theorem newText_fields (k : Nat) (t : String) (it : ClipboardItem)
    (h : newText k t = some it) :
    it.id = k ∧ it.timestamp = k ∧ it.pinned = false ∧
      it.content = ClipboardContent.text t := by
  unfold newText at h
  split at h
  · split at h
    · simp at h
    · simp only [Option.some.injEq] at h
      subst h
      exact ⟨rfl, rfl, rfl, rfl⟩
  · simp only [Option.some.injEq] at h
    subst h
    exact ⟨rfl, rfl, rfl, rfl⟩

theorem newText_isSome (k : Nat) (t : String) (h : previewOk t = true) :
    ∃ it, newText k t = some it := by
  unfold previewOk at h
  unfold newText
  split
  · rename_i hgt
    rw [if_pos hgt] at h
    rcases Option.isSome_iff_exists.mp h with ⟨pre, hpre⟩
    rw [hpre]
    exact ⟨_, rfl⟩
  · exact ⟨_, rfl⟩

theorem newImageWithHash_fields (k : Nat) (b64 : String) (w h hash : Nat) :
    (newImageWithHash k b64 w h hash).id = k ∧
    (newImageWithHash k b64 w h hash).timestamp = k ∧
    (newImageWithHash k b64 w h hash).pinned = false ∧
    textOf (newImageWithHash k b64 w h hash) = none :=
  ⟨rfl, rfl, rfl, rfl⟩

/-! ## Facts about index search and erasure -/

theorem lastIdxWhere_none (p : ClipboardItem → Bool) (l : List ClipboardItem)
    (h : lastIdxWhere p l = none) : l.filter p = [] := by
  induction l with
  | nil => rfl
  | cons x xs ih =>
      unfold lastIdxWhere at h
      rcases hx : lastIdxWhere p xs with _ | i
      · rw [hx] at h
        simp only [] at h
        split at h
        · exact absurd h (by simp)
        · rename_i hpx
          simp only [List.filter_cons]
          rw [if_neg hpx]
          exact ih hx
      · rw [hx] at h
        simp at h

theorem lastIdxWhere_some_ne (p : ClipboardItem → Bool) (l : List ClipboardItem)
    (i : Nat) (h : lastIdxWhere p l = some i) : l.filter p ≠ [] := by
  induction l generalizing i with
  | nil => simp [lastIdxWhere] at h
  | cons x xs ih =>
      unfold lastIdxWhere at h
      rcases hx : lastIdxWhere p xs with _ | j
      · rw [hx] at h
        simp only [] at h
        split at h
        · rename_i hpx
          simp [List.filter_cons, hpx]
        · simp at h
      · rw [hx] at h
        have := ih j hx
        simp only [List.filter_cons]
        split
        · simp
        · exact this

theorem lastIdxWhere_some_lt (p : ClipboardItem → Bool) (l : List ClipboardItem)
    (i : Nat) (h : lastIdxWhere p l = some i) : i < l.length := by
  induction l generalizing i with
  | nil => simp [lastIdxWhere] at h
  | cons x xs ih =>
      unfold lastIdxWhere at h
      rcases hx : lastIdxWhere p xs with _ | j
      · rw [hx] at h
        simp only [] at h
        split at h
        · simp only [Option.some.injEq] at h
          subst h
          simp
        · simp at h
      · rw [hx] at h
        simp only [Option.some.injEq] at h
        subst h
        have := ih j hx
        simp only [List.length_cons]
        omega

theorem eraseIdx_last_filter_pos (l : List ClipboardItem) (i : Nat)
    (h : lastIdxWhere notPinned l = some i) :
    (l.eraseIdx i).filter notPinned = (l.filter notPinned).dropLast := by
  induction l generalizing i with
  | nil => simp [lastIdxWhere] at h
  | cons x xs ih =>
      unfold lastIdxWhere at h
      rcases hx : lastIdxWhere notPinned xs with _ | j
      · rw [hx] at h
        simp only [] at h
        split at h
        · rename_i hpx
          simp only [Option.some.injEq] at h
          subst h
          have hfx := lastIdxWhere_none notPinned xs hx
          simp [List.eraseIdx, List.filter_cons, hpx, hfx]
        · simp at h
      · rw [hx] at h
        simp only [Option.some.injEq] at h
        subst h
        have hne := lastIdxWhere_some_ne notPinned xs j hx
        simp only [List.eraseIdx, List.filter_cons]
        split
        · rw [ih j hx]
          exact (List.dropLast_cons_of_ne_nil hne).symm
        · exact ih j hx

theorem eraseIdx_last_filter_neg (l : List ClipboardItem) (i : Nat)
    (h : lastIdxWhere notPinned l = some i) :
    (l.eraseIdx i).filter (fun it => it.pinned) = l.filter (fun it => it.pinned) := by
  induction l generalizing i with
  | nil => simp [lastIdxWhere] at h
  | cons x xs ih =>
      unfold lastIdxWhere at h
      rcases hx : lastIdxWhere notPinned xs with _ | j
      · rw [hx] at h
        simp only [] at h
        split at h
        · rename_i hpx
          simp only [Option.some.injEq] at h
          subst h
          have hpx' : x.pinned = false := by
            unfold notPinned at hpx
            simpa using hpx
          simp [List.eraseIdx, List.filter_cons, hpx']
        · simp at h
      · rw [hx] at h
        simp only [Option.some.injEq] at h
        subst h
        simp only [List.eraseIdx, List.filter_cons]
        split
        · rw [ih j hx]
        · exact ih j hx

theorem lastIdxWhere_none_nonPinnedList (l : List ClipboardItem)
    (h : lastIdxWhere notPinned l = none) : nonPinnedList l = [] :=
  lastIdxWhere_none notPinned l h

theorem lastIdxWhere_some_nonPinnedList (l : List ClipboardItem) (i : Nat)
    (h : lastIdxWhere notPinned l = some i) : nonPinnedList l ≠ [] :=
  lastIdxWhere_some_ne notPinned l i h

theorem eraseIdx_last_nonPinnedList (l : List ClipboardItem) (i : Nat)
    (h : lastIdxWhere notPinned l = some i) :
    nonPinnedList (l.eraseIdx i) = (nonPinnedList l).dropLast :=
  eraseIdx_last_filter_pos l i h

theorem eraseIdx_last_pinnedList (l : List ClipboardItem) (i : Nat)
    (h : lastIdxWhere notPinned l = some i) :
    pinnedList (l.eraseIdx i) = pinnedList l :=
  eraseIdx_last_filter_neg l i h

theorem length_eraseIdx_of_lt (l : List ClipboardItem) (i : Nat) (h : i < l.length) :
    (l.eraseIdx i).length = l.length - 1 := by
  rw [List.length_eraseIdx, if_pos h]

/-! ## The trim loop -/

theorem trim_spec (fuel : Nat) :
    ∀ l : List ClipboardItem, l.length ≤ fuel →
      (trimLoop fuel l).Sublist l ∧
      pinnedList (trimLoop fuel l) = pinnedList l ∧
      nonPinnedList (trimLoop fuel l)
        = (nonPinnedList l).take (nonPinnedList (trimLoop fuel l)).length ∧
      (l.length ≤ MAX_HISTORY_SIZE → trimLoop fuel l = l) ∧
      (nonPinnedList l = [] → trimLoop fuel l = l) ∧
      (trimLoop fuel l).length
        = max (min l.length MAX_HISTORY_SIZE) (l.length - (nonPinnedList l).length) := by
  induction fuel with
  | zero =>
      intro l hl
      have hnil : l = [] := List.length_eq_zero.mp (Nat.le_zero.mp hl)
      subst hnil
      refine ⟨List.Sublist.refl _, rfl, ?_, fun _ => rfl, fun _ => rfl, ?_⟩
      · simp [trimLoop, nonPinnedList]
      · simp [trimLoop, MAX_HISTORY_SIZE]
  | succ fuel ih =>
      intro l hl
      unfold trimLoop
      by_cases hlen : l.length > MAX_HISTORY_SIZE
      · rw [if_pos hlen]
        rcases hlast : lastIdxWhere notPinned l with _ | pos
        · -- no non-pinned item: loop stops with the list unchanged
          have hnp := lastIdxWhere_none_nonPinnedList l hlast
          refine ⟨List.Sublist.refl _, rfl, ?_, fun hle => absurd hle (by omega), fun _ => rfl, ?_⟩
          · rw [List.take_length]
          · rw [hnp]
            simp only [List.length_nil, Nat.sub_zero]
            omega
        · -- remove the last non-pinned item and recurse
          have hpos := lastIdxWhere_some_lt notPinned l pos hlast
          have hlen' : (l.eraseIdx pos).length = l.length - 1 :=
            length_eraseIdx_of_lt l pos hpos
          have hfuel : (l.eraseIdx pos).length ≤ fuel := by omega
          obtain ⟨ihsub, ihpin, ihtake, _, _, ihlen⟩ := ih (l.eraseIdx pos) hfuel
          have hsub : (l.eraseIdx pos).Sublist l := List.eraseIdx_sublist l pos
          have hnpe : nonPinnedList (l.eraseIdx pos) = (nonPinnedList l).dropLast :=
            eraseIdx_last_nonPinnedList l pos hlast
          have hnpne : nonPinnedList l ≠ [] := lastIdxWhere_some_nonPinnedList l pos hlast
          have hnplen : (nonPinnedList l).length ≥ 1 := by
            rcases hn : nonPinnedList l with _ | ⟨a, b⟩
            · exact absurd hn hnpne
            · simp
          dsimp only
          refine ⟨ihsub.trans hsub, ?_, ?_, fun hle => absurd hle (by omega), fun hnp => absurd hnp hnpne, ?_⟩
          · rw [ihpin, eraseIdx_last_pinnedList l pos hlast]
          · have hk : (nonPinnedList (trimLoop fuel (l.eraseIdx pos))).length
                ≤ (nonPinnedList l).length - 1 := by
              have hlen2 := congrArg List.length ihtake
              rw [List.length_take, hnpe, List.dropLast_eq_take, List.length_take] at hlen2
              omega
            conv_lhs => rw [ihtake]
            rw [hnpe, List.dropLast_eq_take, List.take_take]
            congr 1
            omega
          · rw [ihlen, hlen', hnpe, List.dropLast_eq_take, List.length_take]
            have hfl : (nonPinnedList l).length ≤ l.length :=
              List.length_filter_le _ _
            simp only [MAX_HISTORY_SIZE] at hlen ⊢
            omega
      · rw [if_neg hlen]
        have hfl : (nonPinnedList l).length ≤ l.length := List.length_filter_le _ _
        refine ⟨List.Sublist.refl _, rfl, ?_, fun _ => rfl, fun _ => rfl, ?_⟩
        · rw [List.take_length]
        · omega

/-! ## The insertion position -/

theorem firstIdxWhere_none_filter (p : ClipboardItem → Bool) (l : List ClipboardItem)
    (h : firstIdxWhere p l = none) : l.filter p = [] := by
  induction l with
  | nil => rfl
  | cons x xs ih =>
      unfold firstIdxWhere at h
      split at h
      · simp at h
      · rename_i hpx
        simp only [Option.map_eq_none'] at h
        simp only [List.filter_cons]
        rw [if_neg hpx]
        exact ih h

theorem firstIdxWhere_some_lt (p : ClipboardItem → Bool) (l : List ClipboardItem)
    (i : Nat) (h : firstIdxWhere p l = some i) : i < l.length := by
  induction l generalizing i with
  | nil => simp [firstIdxWhere] at h
  | cons x xs ih =>
      unfold firstIdxWhere at h
      split at h
      · simp only [Option.some.injEq] at h
        subst h
        simp
      · rcases hx : firstIdxWhere p xs with _ | j
        · rw [hx] at h
          simp at h
        · rw [hx] at h
          simp only [Option.map_some', Option.some.injEq] at h
          subst h
          have := ih j hx
          simp only [List.length_cons]
          omega

theorem insertPos_le (l : List ClipboardItem) : insertPos l ≤ l.length := by
  unfold insertPos
  rcases hx : firstIdxWhere notPinned l with _ | j
  · simp
  · simp only [Option.getD_some]
    exact Nat.le_of_lt (firstIdxWhere_some_lt notPinned l j hx)

theorem take_insertPos_pinned (l : List ClipboardItem) :
    nonPinnedList (l.take (insertPos l)) = [] := by
  induction l with
  | nil => simp [nonPinnedList]
  | cons x xs ih =>
      unfold insertPos firstIdxWhere
      split
      · simp [nonPinnedList]
      · rename_i hpx
        rcases hx : firstIdxWhere notPinned xs with _ | j
        · simp [nonPinnedList]
        · simp only [Option.map_some', Option.getD_some, List.take_succ_cons]
          unfold nonPinnedList
          simp only [List.filter_cons]
          rw [if_neg hpx]
          have := ih
          unfold insertPos at this
          rw [hx] at this
          exact this

theorem nonPinnedList_drop_insertPos (l : List ClipboardItem) :
    nonPinnedList (l.drop (insertPos l)) = nonPinnedList l := by
  have h1 : nonPinnedList l
      = nonPinnedList (l.take (insertPos l)) ++ nonPinnedList (l.drop (insertPos l)) := by
    unfold nonPinnedList
    rw [← List.filter_append, List.take_append_drop]
  rw [h1, take_insertPos_pinned, List.nil_append]

theorem length_insertAt (l : List ClipboardItem) (i : Nat) (x : ClipboardItem)
    (h : i ≤ l.length) : (insertAt l i x).length = l.length + 1 := by
  unfold insertAt
  simp only [List.length_append, List.length_cons, List.length_take, List.length_drop]
  omega

theorem pinnedList_insertAt (l : List ClipboardItem) (i : Nat) (x : ClipboardItem)
    (h : x.pinned = false) : pinnedList (insertAt l i x) = pinnedList l := by
  unfold insertAt pinnedList
  rw [List.filter_append, List.filter_cons, h]
  simp only [Bool.false_eq_true, if_false, ← List.filter_append, List.take_append_drop]

theorem nonPinnedList_insertAt_pos (l : List ClipboardItem) (x : ClipboardItem)
    (h : x.pinned = false) :
    nonPinnedList (insertAt l (insertPos l) x) = x :: nonPinnedList l := by
  have hx : notPinned x = true := by simp [notPinned, h]
  have h1 := take_insertPos_pinned l
  have h2 := nonPinnedList_drop_insertPos l
  unfold nonPinnedList at h1 h2 ⊢
  unfold insertAt
  rw [List.filter_append, List.filter_cons, if_pos hx, h1, List.nil_append, h2]

theorem mem_insertAt (l : List ClipboardItem) (i : Nat) (x y : ClipboardItem)
    (h : y ∈ insertAt l i x) : y = x ∨ y ∈ l := by
  unfold insertAt at h
  rcases List.mem_append.mp h with h1 | h1
  · exact Or.inr (List.take_subset i l h1)
  · rcases List.mem_cons.mp h1 with h2 | h2
    · exact Or.inl h2
    · exact Or.inr (List.drop_subset i l h2)

theorem idsOf_nodup_insertAt (l : List ClipboardItem) (i : Nat) (x : ClipboardItem)
    (hmem : x.id ∉ idsOf l) (hnd : (idsOf l).Nodup) :
    (idsOf (insertAt l i x)).Nodup := by
  unfold insertAt idsOf
  rw [List.map_append, List.map_cons]
  rw [List.nodup_middle]
  rw [List.nodup_cons, ← List.map_append, List.take_append_drop]
  exact ⟨hmem, hnd⟩

/-! ## `insert_item` -/

theorem insertItem_def (l : List ClipboardItem) (x : ClipboardItem) :
    insertItem l x
      = trimLoop (insertAt l (insertPos l) x).length (insertAt l (insertPos l) x) := rfl

theorem insertItem_sublist (l : List ClipboardItem) (x : ClipboardItem) :
    (insertItem l x).Sublist (insertAt l (insertPos l) x) :=
  (trim_spec _ _ (Nat.le_refl _)).1

theorem pinnedList_insertItem (l : List ClipboardItem) (x : ClipboardItem)
    (h : x.pinned = false) : pinnedList (insertItem l x) = pinnedList l := by
  rw [insertItem_def]
  rw [(trim_spec _ _ (Nat.le_refl _)).2.1]
  exact pinnedList_insertAt l (insertPos l) x h

theorem mem_insertItem (l : List ClipboardItem) (x y : ClipboardItem)
    (h : y ∈ insertItem l x) : y = x ∨ y ∈ l :=
  mem_insertAt l (insertPos l) x y ((insertItem_sublist l x).subset h)

theorem length_insertItem_le (l : List ClipboardItem) (x : ClipboardItem)
    (hp : x.pinned = false) (hl : l.length ≤ MAX_HISTORY_SIZE) :
    (insertItem l x).length ≤ MAX_HISTORY_SIZE := by
  rw [insertItem_def]
  have hlen := (trim_spec (insertAt l (insertPos l) x).length (insertAt l (insertPos l) x)
    (Nat.le_refl _)).2.2.2.2.2
  rw [hlen]
  have h1 : (insertAt l (insertPos l) x).length = l.length + 1 :=
    length_insertAt l (insertPos l) x (insertPos_le l)
  have h2 : nonPinnedList (insertAt l (insertPos l) x) = x :: nonPinnedList l :=
    nonPinnedList_insertAt_pos l x hp
  have h3 : (nonPinnedList l).length ≤ l.length := List.length_filter_le _ _
  rw [h1, h2]
  simp only [List.length_cons]
  omega

theorem idsOf_nodup_insertItem (l : List ClipboardItem) (x : ClipboardItem)
    (hmem : x.id ∉ idsOf l) (hnd : (idsOf l).Nodup) :
    (idsOf (insertItem l x)).Nodup := by
  have h1 : (idsOf (insertItem l x)).Sublist (idsOf (insertAt l (insertPos l) x)) :=
    (insertItem_sublist l x).map _
  exact h1.nodup (idsOf_nodup_insertAt l (insertPos l) x hmem hnd)

/-! ## Texts of non-pinned items -/

theorem textsNP_append (a b : List ClipboardItem) :
    textsNP (a ++ b) = textsNP a ++ textsNP b := by
  unfold textsNP nonPinnedList
  rw [List.filter_append, List.filterMap_append]

theorem sublist_textsNP (l₁ l₂ : List ClipboardItem) (h : l₁.Sublist l₂) :
    (textsNP l₁).Sublist (textsNP l₂) :=
  (h.filter notPinned).filterMap textOf

theorem textsNP_cons_text (x : ClipboardItem) (l : List ClipboardItem) (t : String)
    (hp : x.pinned = false) (hc : x.content = ClipboardContent.text t) :
    textsNP (x :: l) = t :: textsNP l := by
  unfold textsNP nonPinnedList
  have hx : notPinned x = true := by simp [notPinned, hp]
  rw [List.filter_cons, if_pos hx, List.filterMap_cons]
  have : textOf x = some t := by unfold textOf; rw [hc]
  rw [this]

theorem textsNP_cons_pinned (x : ClipboardItem) (l : List ClipboardItem)
    (hp : x.pinned = true) : textsNP (x :: l) = textsNP l := by
  unfold textsNP nonPinnedList
  have hx : notPinned x = false := by simp [notPinned, hp]
  rw [List.filter_cons, hx]
  simp

theorem textsNP_cons_image (x : ClipboardItem) (l : List ClipboardItem)
    (hc : textOf x = none) : textsNP (x :: l) = textsNP l := by
  unfold textsNP nonPinnedList
  rw [List.filter_cons]
  split
  · rw [List.filterMap_cons, hc]
  · rfl

theorem mem_textsNP (l : List ClipboardItem) (x : ClipboardItem) (t : String)
    (hmem : x ∈ l) (hp : x.pinned = false) (hc : x.content = ClipboardContent.text t) :
    t ∈ textsNP l := by
  unfold textsNP
  refine List.mem_filterMap.mpr ⟨x, ?_, ?_⟩
  · exact List.mem_filter.mpr ⟨hmem, by simp [notPinned, hp]⟩
  · unfold textOf; rw [hc]

/-! ## The duplicate search of `add_text` -/

theorem dupIdx_none_not_mem (l : List ClipboardItem) (t : String)
    (h : dupIdx l t = none) : t ∉ textsNP l := by
  induction l with
  | nil => simp [textsNP, nonPinnedList]
  | cons x xs ih =>
      unfold dupIdx firstIdxWhere at h
      split at h
      · simp at h
      · rename_i hq
        simp only [Option.map_eq_none'] at h
        have hxs : t ∉ textsNP xs := ih h
        rcases hpin : x.pinned with _ | _
        · rcases hcon : x.content with s | ⟨b, w, hh⟩
          · rw [textsNP_cons_text x xs s hpin hcon]
            have hst : s ≠ t := by
              intro he
              subst he
              rw [Bool.and_eq_true] at hq
              apply hq
              constructor
              · simp [notPinned, hpin]
              · unfold isTextEq
                rw [hcon]
                simp
            simp only [List.mem_cons]
            rintro (h1 | h1)
            · exact hst h1.symm
            · exact hxs h1
          · rw [textsNP_cons_image x xs (by unfold textOf; rw [hcon])]
            exact hxs
        · rw [textsNP_cons_pinned x xs hpin]
          exact hxs

theorem dupIdx_some_erase_not_mem (l : List ClipboardItem) (t : String) (pos : Nat)
    (hnd : (textsNP l).Nodup) (h : dupIdx l t = some pos) :
    t ∉ textsNP (l.eraseIdx pos) := by
  induction l generalizing pos with
  | nil => simp [dupIdx, firstIdxWhere] at h
  | cons x xs ih =>
      unfold dupIdx firstIdxWhere at h
      split at h
      · rename_i hq
        simp only [Option.some.injEq] at h
        subst h
        rw [Bool.and_eq_true] at hq
        obtain ⟨hq1, hq2⟩ := hq
        have hp : x.pinned = false := by
          unfold notPinned at hq1
          simpa using hq1
        have hc : x.content = ClipboardContent.text t := by
          unfold isTextEq at hq2
          rcases hcon : x.content with s | ⟨b, w, hh⟩
          · rw [hcon] at hq2
            simp only [decide_eq_true_eq] at hq2
            rw [hq2]
          · rw [hcon] at hq2
            simp at hq2
        rw [textsNP_cons_text x xs t hp hc] at hnd
        rw [List.nodup_cons] at hnd
        simpa using hnd.1
      · rename_i hq
        rcases hx : dupIdx xs t with _ | j
        · unfold dupIdx at hx
          rw [hx] at h
          simp at h
        · unfold dupIdx at hx
          rw [hx] at h
          simp only [Option.map_some', Option.some.injEq] at h
          subst h
          simp only [List.eraseIdx_cons_succ]
          rcases hpin : x.pinned with _ | _
          · rcases hcon : x.content with s | ⟨b, w, hh⟩
            · have hst : s ≠ t := by
                intro he
                subst he
                rw [Bool.and_eq_true] at hq
                apply hq
                constructor
                · simp [notPinned, hpin]
                · unfold isTextEq
                  rw [hcon]
                  simp
              rw [textsNP_cons_text x xs s hpin hcon] at hnd
              rw [textsNP_cons_text x (xs.eraseIdx j) s hpin hcon]
              have := ih j (List.Nodup.of_cons hnd) hx
              simp only [List.mem_cons]
              rintro (h1 | h1)
              · exact hst h1.symm
              · exact this h1
            · have hto : textOf x = none := by unfold textOf; rw [hcon]
              rw [textsNP_cons_image x xs hto] at hnd
              rw [textsNP_cons_image x (xs.eraseIdx j) hto]
              exact ih j hnd hx
          · rw [textsNP_cons_pinned x xs hpin] at hnd
            rw [textsNP_cons_pinned x (xs.eraseIdx j) hpin]
            exact ih j hnd hx

theorem dupIdx_erase_pinnedList (l : List ClipboardItem) (t : String) (pos : Nat)
    (h : dupIdx l t = some pos) : pinnedList (l.eraseIdx pos) = pinnedList l := by
  induction l generalizing pos with
  | nil => simp [dupIdx, firstIdxWhere] at h
  | cons x xs ih =>
      unfold dupIdx firstIdxWhere at h
      split at h
      · rename_i hq
        simp only [Option.some.injEq] at h
        subst h
        rw [Bool.and_eq_true] at hq
        have hp : x.pinned = false := by
          have := hq.1
          unfold notPinned at this
          simpa using this
        simp only [List.eraseIdx_cons_zero]
        unfold pinnedList
        rw [List.filter_cons, hp]
        simp
      · rcases hx : dupIdx xs t with _ | j
        · unfold dupIdx at hx
          rw [hx] at h
          simp at h
        · unfold dupIdx at hx
          rw [hx] at h
          simp only [Option.map_some', Option.some.injEq] at h
          subst h
          simp only [List.eraseIdx_cons_succ]
          unfold pinnedList
          rw [List.filter_cons, List.filter_cons]
          have := ih j hx
          unfold pinnedList at this
          split
          · rw [this]
          · exact this

theorem dupIdx_isSome_of_mem (l : List ClipboardItem) (t : String) (x : ClipboardItem)
    (hmem : x ∈ l) (hp : x.pinned = false) (hc : x.content = ClipboardContent.text t) :
    dupIdx l t ≠ none := by
  intro hnone
  exact dupIdx_none_not_mem l t hnone (mem_textsNP l x t hmem hp hc)

theorem dupIdx_erase_id_not_mem (l : List ClipboardItem) (t : String) (pos : Nat)
    (x : ClipboardItem) (hnd : (idsOf l).Nodup) (h : dupIdx l t = some pos)
    (huniq : ∀ y ∈ l, y.pinned = false → y.content = ClipboardContent.text t → y = x)
    (hmem : x ∈ l) (hp : x.pinned = false) (hc : x.content = ClipboardContent.text t) :
    x.id ∉ idsOf (l.eraseIdx pos) := by
  induction l generalizing pos with
  | nil => simp [dupIdx, firstIdxWhere] at h
  | cons z zs ih =>
      unfold dupIdx firstIdxWhere at h
      unfold idsOf at hnd
      rw [List.map_cons, List.nodup_cons] at hnd
      split at h
      · rename_i hq
        simp only [Option.some.injEq] at h
        subst h
        rw [Bool.and_eq_true] at hq
        have hzp : z.pinned = false := by
          have := hq.1
          unfold notPinned at this
          simpa using this
        have hzc : z.content = ClipboardContent.text t := by
          have := hq.2
          unfold isTextEq at this
          rcases hcon : z.content with s | ⟨b, w, hh⟩
          · rw [hcon] at this
            simp only [decide_eq_true_eq] at this
            rw [this]
          · rw [hcon] at this
            simp at this
        have hzx : z = x := huniq z (List.mem_cons_self z zs) hzp hzc
        simp only [List.eraseIdx_cons_zero]
        rw [← hzx]
        exact hnd.1
      · rename_i hq
        rcases hx : dupIdx zs t with _ | j
        · unfold dupIdx at hx
          rw [hx] at h
          simp at h
        · unfold dupIdx at hx
          rw [hx] at h
          simp only [Option.map_some', Option.some.injEq] at h
          subst h
          have hxz : x ≠ z := by
            intro he
            subst he
            exact hq (by simp [notPinned, hp, isTextEq, hc])
          have hxzs : x ∈ zs := by
            rcases List.mem_cons.mp hmem with h1 | h1
            · exact absurd h1 hxz
            · exact h1
          have hxid : x.id ≠ z.id := by
            intro he
            apply hnd.1
            rw [← he]
            exact List.mem_map.mpr ⟨x, hxzs, rfl⟩
          simp only [List.eraseIdx_cons_succ]
          unfold idsOf
          rw [List.map_cons]
          simp only [List.mem_cons]
          rintro (h1 | h1)
          · exact hxid h1
          · exact ih j hnd.2 hx
              (fun y hy hyp hyc => huniq y (List.mem_cons_of_mem z hy) hyp hyc) hxzs h1

/-! ## `toggle_pin` -/

theorem togglePinList_idsOf (id : Nat) (l : List ClipboardItem) :
    idsOf (togglePinList id l).2 = idsOf l := by
  induction l with
  | nil => rfl
  | cons x xs ih =>
      unfold togglePinList
      split
      · rfl
      · unfold idsOf at ih ⊢
        simp only [List.map_cons, ih]

theorem togglePinList_length (id : Nat) (l : List ClipboardItem) :
    (togglePinList id l).2.length = l.length := by
  have h := congrArg List.length (togglePinList_idsOf id l)
  unfold idsOf at h
  simpa using h

theorem togglePinList_mem_shape (id : Nat) (l : List ClipboardItem) (y : ClipboardItem)
    (h : y ∈ (togglePinList id l).2) :
    ∃ z ∈ l, y.id = z.id ∧ y.timestamp = z.timestamp := by
  induction l with
  | nil => simp [togglePinList] at h
  | cons x xs ih =>
      unfold togglePinList at h
      split at h
      · rcases List.mem_cons.mp h with h1 | h1
        · subst h1
          exact ⟨x, List.mem_cons_self x xs, rfl, rfl⟩
        · exact ⟨y, List.mem_cons_of_mem x h1, rfl, rfl⟩
      · rcases List.mem_cons.mp h with h1 | h1
        · subst h1
          exact ⟨y, List.mem_cons_self y xs, rfl, rfl⟩
        · rcases ih h1 with ⟨z, hz, hzy⟩
          exact ⟨z, List.mem_cons_of_mem x hz, hzy⟩

theorem togglePinList_cons_eq (id : Nat) (x : ClipboardItem) (xs : List ClipboardItem)
    (h : x.id = id) :
    togglePinList id (x :: xs)
      = (some { x with pinned := !x.pinned }, { x with pinned := !x.pinned } :: xs) := by
  unfold togglePinList
  rw [if_pos h]

theorem togglePinList_cons_ne (id : Nat) (x : ClipboardItem) (xs : List ClipboardItem)
    (h : ¬x.id = id) :
    togglePinList id (x :: xs)
      = ((togglePinList id xs).1, x :: (togglePinList id xs).2) := by
  rw [togglePinList]
  rw [if_neg h]

theorem togglePinList_pin_only_textsNP (id : Nat) (l : List ClipboardItem)
    (h : ∀ it, (togglePinList id l).1 = some it → it.pinned = true) :
    (textsNP (togglePinList id l).2).Sublist (textsNP l) := by
  induction l with
  | nil => exact List.Sublist.refl _
  | cons x xs ih =>
      by_cases hid : x.id = id
      · rw [togglePinList_cons_eq id x xs hid] at h ⊢
        have hflip : ({ x with pinned := !x.pinned } : ClipboardItem).pinned = true :=
          h { x with pinned := !x.pinned } rfl
        have hp : x.pinned = false := by simpa using hflip
        have h1 : textsNP ({ x with pinned := !x.pinned } :: xs) = textsNP xs :=
          textsNP_cons_pinned _ xs hflip
        dsimp only
        rw [h1]
        rcases hcon : x.content with s | ⟨b, w, hh⟩
        · rw [textsNP_cons_text x xs s hp hcon]
          exact List.sublist_cons_of_sublist s (List.Sublist.refl _)
        · rw [textsNP_cons_image x xs (by unfold textOf; rw [hcon])]
      · rw [togglePinList_cons_ne id x xs hid] at h ⊢
        dsimp only at h ⊢
        have ih2 := ih h
        rcases hpin : x.pinned with _ | _
        · rcases hcon : x.content with s | ⟨b, w, hh⟩
          · rw [textsNP_cons_text x ((togglePinList id xs).2) s hpin hcon,
              textsNP_cons_text x xs s hpin hcon]
            exact List.Sublist.cons₂ s ih2
          · rw [textsNP_cons_image x ((togglePinList id xs).2) (by unfold textOf; rw [hcon]),
              textsNP_cons_image x xs (by unfold textOf; rw [hcon])]
            exact ih2
        · rw [textsNP_cons_pinned x ((togglePinList id xs).2) hpin,
            textsNP_cons_pinned x xs hpin]
          exact ih2

/-! ## Shapes of the ingestion operations -/

theorem addText_shape (m : ClipboardManager) (t : String) :
    addText m t = PanicOr.panic ∨
    (∃ m', addText m t = PanicOr.ok (none, m') ∧ m'.history = m.history ∧
      m'.counter = m.counter) ∨
    (∃ item hist1,
      newText m.counter t = some item ∧
      ((dupIdx m.history t = none ∧ hist1 = m.history) ∨
        ∃ pos, dupIdx m.history t = some pos ∧ hist1 = m.history.eraseIdx pos) ∧
      addText m t = PanicOr.ok (some item,
        { m with history := insertItem hist1 item,
                 last_added_text_hash := some (textHash t),
                 counter := m.counter + 1 })) := by
  unfold addText
  split
  · exact Or.inr (Or.inl ⟨m, rfl, rfl, rfl⟩)
  · dsimp only
    split
    · exact Or.inr (Or.inl ⟨m, rfl, rfl, rfl⟩)
    · split
      · exact Or.inr (Or.inl ⟨_, rfl, rfl, rfl⟩)
      · have haccept : addTextAccept m t (textHash t) = PanicOr.panic ∨
            (∃ item hist1,
              newText m.counter t = some item ∧
              ((dupIdx m.history t = none ∧ hist1 = m.history) ∨
                ∃ pos, dupIdx m.history t = some pos ∧ hist1 = m.history.eraseIdx pos) ∧
              addTextAccept m t (textHash t) = PanicOr.ok (some item,
                { m with history := insertItem hist1 item,
                         last_added_text_hash := some (textHash t),
                         counter := m.counter + 1 })) := by
          unfold addTextAccept
          rcases hdup : dupIdx m.history t with _ | pos
          · rcases hnt : newText m.counter t with _ | item
            · exact Or.inl rfl
            · exact Or.inr ⟨item, m.history, rfl, Or.inl ⟨rfl, rfl⟩, rfl⟩
          · rcases hnt : newText m.counter t with _ | item
            · exact Or.inl rfl
            · exact Or.inr ⟨item, m.history.eraseIdx pos, rfl, Or.inr ⟨pos, rfl, rfl⟩, rfl⟩
        split
        · split
          · exact Or.inr (Or.inl ⟨_, rfl, rfl, rfl⟩)
          · rcases haccept with h | ⟨item, hist1, h1, h2, h3⟩
            · exact Or.inl h
            · exact Or.inr (Or.inr ⟨item, hist1, h1, h2, h3⟩)
        · rcases haccept with h | ⟨item, hist1, h1, h2, h3⟩
          · exact Or.inl h
          · exact Or.inr (Or.inr ⟨item, hist1, h1, h2, h3⟩)

theorem addTextRun_shape (m : ClipboardManager) (t : String) :
    ((addTextRun m t).history = m.history ∧ (addTextRun m t).counter = m.counter) ∨
    (∃ item hist1,
      newText m.counter t = some item ∧
      ((dupIdx m.history t = none ∧ hist1 = m.history) ∨
        ∃ pos, dupIdx m.history t = some pos ∧ hist1 = m.history.eraseIdx pos) ∧
      (addTextRun m t).history = insertItem hist1 item ∧
      (addTextRun m t).counter = m.counter + 1) := by
  rcases addText_shape m t with h | ⟨m', h, h1, h2⟩ | ⟨item, hist1, h1, h2, h3⟩
  · left
    unfold addTextRun
    rw [h]
    exact ⟨rfl, rfl⟩
  · left
    unfold addTextRun
    rw [h]
    exact ⟨h1, h2⟩
  · right
    refine ⟨item, hist1, h1, h2, ?_, ?_⟩
    · unfold addTextRun
      rw [h3]
    · unfold addTextRun
      rw [h3]

theorem addImage_shape (m : ClipboardManager) (bytes : List Nat) (w h hash : Nat)
    (enc : Option String) :
    addImage m bytes w h hash enc = PanicOr.panic ∨
    (∃ m', addImage m bytes w h hash enc = PanicOr.ok (none, m') ∧
      m'.history = m.history ∧ m'.counter = m.counter) ∨
    (∃ b64, enc = some b64 ∧
      addImage m bytes w h hash enc = PanicOr.ok
        (some (newImageWithHash m.counter b64 w h hash),
         { m with history := insertItem m.history (newImageWithHash m.counter b64 w h hash),
                  counter := m.counter + 1 })) := by
  unfold addImage
  split
  · exact Or.inr (Or.inl ⟨_, rfl, rfl, rfl⟩)
  · dsimp only
    split
    · exact Or.inr (Or.inl ⟨m, rfl, rfl, rfl⟩)
    · split
      · exact Or.inl rfl
      · unfold addImageAccept
        rcases enc with _ | b64
        · exact Or.inr (Or.inl ⟨m, rfl, rfl, rfl⟩)
        · exact Or.inr (Or.inr ⟨b64, rfl, rfl⟩)

theorem addImageRun_shape (m : ClipboardManager) (bytes : List Nat) (w h hash : Nat)
    (enc : Option String) :
    ((addImageRun m bytes w h hash enc).history = m.history ∧
      (addImageRun m bytes w h hash enc).counter = m.counter) ∨
    (∃ b64,
      (addImageRun m bytes w h hash enc).history
        = insertItem m.history (newImageWithHash m.counter b64 w h hash) ∧
      (addImageRun m bytes w h hash enc).counter = m.counter + 1) := by
  rcases addImage_shape m bytes w h hash enc with h1 | ⟨m', h1, h2, h3⟩ | ⟨b64, hb, h1⟩
  · left
    unfold addImageRun
    rw [h1]
    exact ⟨rfl, rfl⟩
  · left
    unfold addImageRun
    rw [h1]
    exact ⟨h2, h3⟩
  · right
    refine ⟨b64, ?_, ?_⟩
    · unfold addImageRun
      rw [h1]
    · unfold addImageRun
      rw [h1]

theorem removeItem_fields (m : ClipboardManager) (id : Nat) :
    (removeItem m id).history = m.history.filter (fun i => i.id ≠ id) ∧
    (removeItem m id).counter = m.counter := ⟨rfl, rfl⟩

theorem clear_fields (m : ClipboardManager) :
    (clear m).history = m.history.filter (fun i => i.pinned) ∧
    (clear m).counter = m.counter := ⟨rfl, rfl⟩

theorem markAsPasted_fields (m : ClipboardManager) (it : ClipboardItem) :
    (markAsPasted m it).history = m.history ∧
    (markAsPasted m it).counter = m.counter ∧
    (markAsPasted m it).last_added_text_hash = m.last_added_text_hash := by
  unfold markAsPasted
  split
  · exact ⟨rfl, rfl, rfl⟩
  · split
    · exact ⟨rfl, rfl, rfl⟩
    · exact ⟨rfl, rfl, rfl⟩

theorem markTextAsPasted_fields (m : ClipboardManager) (t : String) :
    (markTextAsPasted m t).history = m.history ∧
    (markTextAsPasted m t).counter = m.counter := ⟨rfl, rfl⟩

theorem togglePin_fields (m : ClipboardManager) (id : Nat) :
    ((togglePin m id).2).history = (togglePinList id m.history).2 ∧
    ((togglePin m id).2).counter = m.counter := ⟨rfl, rfl⟩

/-! ## The basic reachability invariant: bounded length, distinct fresh ids -/

theorem reach_basic_inv (m : ClipboardManager) (h : Reach m) :
    m.history.length ≤ MAX_HISTORY_SIZE ∧ (idsOf m.history).Nodup ∧
    ∀ y ∈ m.history, y.id < m.counter ∧ y.timestamp < m.counter := by
  induction h with
  | init =>
      refine ⟨by simp [ClipboardManager.new, MAX_HISTORY_SIZE], by simp [ClipboardManager.new, idsOf], ?_⟩
      intro y hy
      simp [ClipboardManager.new] at hy
  | rAddText m t hm ih =>
      rcases addTextRun_shape m t with ⟨h1, h2⟩ | ⟨item, hist1, hnew, hh1, h1, h2⟩
      · rw [h1, h2]
        exact ih
      · obtain ⟨ihlen, ihnd, ihbound⟩ := ih
        have hsub : hist1.Sublist m.history := by
          rcases hh1 with ⟨hdup, rfl⟩ | ⟨pos, hp, hh⟩
          · exact List.Sublist.refl _
          · rw [hh]
            exact List.eraseIdx_sublist _ _
        obtain ⟨hid, hts, hpin, hcont⟩ := newText_fields m.counter t item hnew
        have hlen1 : hist1.length ≤ MAX_HISTORY_SIZE := le_trans hsub.length_le ihlen
        have hnd1 : (idsOf hist1).Nodup := (hsub.map _).nodup ihnd
        have hboundsub : ∀ y ∈ hist1, y.id < m.counter ∧ y.timestamp < m.counter :=
          fun y hy => ihbound y (hsub.subset hy)
        have hnotmem : item.id ∉ idsOf hist1 := by
          intro hmem
          rcases List.mem_map.mp hmem with ⟨y, hy, hyid⟩
          have h3 := (hboundsub y hy).1
          rw [hyid, hid] at h3
          omega
        refine ⟨?_, ?_, ?_⟩
        · rw [h1]
          exact length_insertItem_le hist1 item hpin hlen1
        · rw [h1]
          exact idsOf_nodup_insertItem hist1 item hnotmem hnd1
        · intro y hy
          rw [h2]
          rw [h1] at hy
          rcases mem_insertItem hist1 item y hy with rfl | hy2
          · rw [hid, hts]
            omega
          · have h3 := hboundsub y hy2
            omega
  | rAddImage m bytes w hh hash enc hm ih =>
      rcases addImageRun_shape m bytes w hh hash enc with ⟨h1, h2⟩ | ⟨b64, h1, h2⟩
      · rw [h1, h2]
        exact ih
      · obtain ⟨ihlen, ihnd, ihbound⟩ := ih
        obtain ⟨hid, hts, hpin, _⟩ := newImageWithHash_fields m.counter b64 w hh hash
        have hnotmem : (newImageWithHash m.counter b64 w hh hash).id ∉ idsOf m.history := by
          intro hmem
          rcases List.mem_map.mp hmem with ⟨y, hy, hyid⟩
          have h3 := (ihbound y hy).1
          rw [hyid, hid] at h3
          omega
        refine ⟨?_, ?_, ?_⟩
        · rw [h1]
          exact length_insertItem_le m.history _ hpin ihlen
        · rw [h1]
          exact idsOf_nodup_insertItem m.history _ hnotmem ihnd
        · intro y hy
          rw [h2]
          rw [h1] at hy
          rcases mem_insertItem m.history _ y hy with rfl | hy2
          · rw [hid, hts]
            omega
          · have h3 := ihbound y hy2
            omega
  | rRemove m id hm ih =>
      obtain ⟨ihlen, ihnd, ihbound⟩ := ih
      obtain ⟨h1, h2⟩ := removeItem_fields m id
      have hsub : ((removeItem m id).history).Sublist m.history := by
        rw [h1]
        exact List.filter_sublist _
      refine ⟨le_trans hsub.length_le ihlen, (hsub.map _).nodup ihnd, ?_⟩
      intro y hy
      rw [h2]
      exact ihbound y (hsub.subset hy)
  | rClear m hm ih =>
      obtain ⟨ihlen, ihnd, ihbound⟩ := ih
      obtain ⟨h1, h2⟩ := clear_fields m
      have hsub : ((clear m).history).Sublist m.history := by
        rw [h1]
        exact List.filter_sublist _
      refine ⟨le_trans hsub.length_le ihlen, (hsub.map _).nodup ihnd, ?_⟩
      intro y hy
      rw [h2]
      exact ihbound y (hsub.subset hy)
  | rToggle m id hm ih =>
      obtain ⟨ihlen, ihnd, ihbound⟩ := ih
      obtain ⟨h1, h2⟩ := togglePin_fields m id
      refine ⟨?_, ?_, ?_⟩
      · rw [h1, togglePinList_length]
        exact ihlen
      · rw [h1, togglePinList_idsOf]
        exact ihnd
      · intro y hy
        rw [h2]
        rw [h1] at hy
        rcases togglePinList_mem_shape id m.history y hy with ⟨z, hz, hzy1, hzy2⟩
        have h3 := ihbound z hz
        rw [hzy1, hzy2]
        exact h3
  | rMarkPasted m it hm ih =>
      obtain ⟨h1, h2, _⟩ := markAsPasted_fields m it
      rw [h1, h2]
      exact ih
  | rMarkText m t hm ih =>
      obtain ⟨h1, h2⟩ := markTextAsPasted_fields m t
      rw [h1, h2]
      exact ih

/-! ## The dedup invariant under pin-only reachability -/

theorem nodup_textsNP_insertItem_text (hist1 : List ClipboardItem) (item : ClipboardItem)
    (t : String) (hpin : item.pinned = false)
    (hcont : item.content = ClipboardContent.text t)
    (hnotmem : t ∉ textsNP hist1) (hnd : (textsNP hist1).Nodup) :
    (textsNP (insertItem hist1 item)).Nodup := by
  have hsub := sublist_textsNP _ _ (insertItem_sublist hist1 item)
  apply hsub.nodup
  unfold insertAt
  rw [textsNP_append, textsNP_cons_text item _ t hpin hcont]
  rw [List.nodup_middle, List.nodup_cons]
  rw [← textsNP_append, List.take_append_drop]
  exact ⟨hnotmem, hnd⟩

theorem nodup_textsNP_insertItem_image (hist1 : List ClipboardItem) (item : ClipboardItem)
    (hto : textOf item = none) (hnd : (textsNP hist1).Nodup) :
    (textsNP (insertItem hist1 item)).Nodup := by
  have hsub := sublist_textsNP _ _ (insertItem_sublist hist1 item)
  apply hsub.nodup
  unfold insertAt
  rw [textsNP_append, textsNP_cons_image item _ hto]
  rw [← textsNP_append, List.take_append_drop]
  exact hnd

theorem reach_pin_only_dedup_inv (m : ClipboardManager) (h : ReachPinOnly m) :
    (textsNP m.history).Nodup := by
  induction h with
  | init => simp [ClipboardManager.new, textsNP, nonPinnedList]
  | rAddText m t hm ih =>
      rcases addTextRun_shape m t with ⟨h1, _⟩ | ⟨item, hist1, hnew, hh1, h1, _⟩
      · rw [h1]
        exact ih
      · obtain ⟨_, _, hpin, hcont⟩ := newText_fields m.counter t item hnew
        rw [h1]
        have hnd1 : (textsNP hist1).Nodup := by
          rcases hh1 with ⟨hdup, rfl⟩ | ⟨pos, hp, hh⟩
          · exact ih
          · rw [hh]
            exact (sublist_textsNP _ _ (List.eraseIdx_sublist _ _)).nodup ih
        have hnotmem : t ∉ textsNP hist1 := by
          rcases hh1 with ⟨hdup, rfl⟩ | ⟨pos, hp, hh⟩
          · exact dupIdx_none_not_mem m.history t hdup
          · rw [hh]
            exact dupIdx_some_erase_not_mem m.history t pos ih hp
        exact nodup_textsNP_insertItem_text hist1 item t hpin hcont hnotmem hnd1
  | rAddImage m bytes w hh hash enc hm ih =>
      rcases addImageRun_shape m bytes w hh hash enc with ⟨h1, _⟩ | ⟨b64, h1, _⟩
      · rw [h1]
        exact ih
      · rw [h1]
        exact nodup_textsNP_insertItem_image m.history _
          (newImageWithHash_fields m.counter b64 w hh hash).2.2.2 ih
  | rRemove m id hm ih =>
      obtain ⟨h1, _⟩ := removeItem_fields m id
      rw [h1]
      exact (sublist_textsNP _ _ (List.filter_sublist _)).nodup ih
  | rClear m hm ih =>
      obtain ⟨h1, _⟩ := clear_fields m
      rw [h1]
      exact (sublist_textsNP _ _ (List.filter_sublist _)).nodup ih
  | rToggle m id hm hpinonly ih =>
      obtain ⟨h1, _⟩ := togglePin_fields m id
      rw [h1]
      exact (togglePinList_pin_only_textsNP id m.history hpinonly).nodup ih
  | rMarkPasted m it hm ih =>
      obtain ⟨h1, _, _⟩ := markAsPasted_fields m it
      rw [h1]
      exact ih
  | rMarkText m t hm ih =>
      obtain ⟨h1, _⟩ := markTextAsPasted_fields m t
      rw [h1]
      exact ih

/-! ## Pinned items survive insertions -/

theorem pinnedList_addTextRun (m : ClipboardManager) (t : String) :
    pinnedList (addTextRun m t).history = pinnedList m.history := by
  rcases addTextRun_shape m t with ⟨h1, _⟩ | ⟨item, hist1, hnew, hh1, h1, _⟩
  · rw [h1]
  · obtain ⟨_, _, hpin, _⟩ := newText_fields m.counter t item hnew
    rw [h1, pinnedList_insertItem hist1 item hpin]
    rcases hh1 with ⟨_, rfl⟩ | ⟨pos, hp, hh⟩
    · rfl
    · rw [hh]
      exact dupIdx_erase_pinnedList m.history t pos hp

theorem pinnedList_addImageRun (m : ClipboardManager) (bytes : List Nat) (w h hash : Nat)
    (enc : Option String) :
    pinnedList (addImageRun m bytes w h hash enc).history = pinnedList m.history := by
  rcases addImageRun_shape m bytes w h hash enc with ⟨h1, _⟩ | ⟨b64, h1, _⟩
  · rw [h1]
  · rw [h1]
    exact pinnedList_insertItem m.history _ (newImageWithHash_fields m.counter b64 w h hash).2.2.1

/-! ## Injectivity of the content digest -/

theorem char_toNat_lt (c : Char) : c.toNat < 2000000 := by
  have h : c.val.toNat < 0xd800 ∨ (0xdfff < c.val.toNat ∧ c.val.toNat < 0x110000) := c.valid
  have hn : c.toNat = c.val.toNat := rfl
  rw [hn]
  omega

theorem encodeChars_inj (a : List Char) : ∀ b : List Char,
    encodeChars a = encodeChars b → a = b := by
  induction a with
  | nil =>
      intro b h
      cases b with
      | nil => rfl
      | cons d ds =>
          exfalso
          unfold encodeChars at h
          omega
  | cons c cs ih =>
      intro b h
      cases b with
      | nil =>
          exfalso
          unfold encodeChars at h
          omega
      | cons d ds =>
          unfold encodeChars at h
          have hc := char_toNat_lt c
          have hd := char_toNat_lt d
          have h1 : c.toNat = d.toNat := by omega
          have h2 : encodeChars cs = encodeChars ds := by omega
          have hcd : c = d := by
            have h3 := congrArg Char.ofNat h1
            rwa [Char.ofNat_toNat, Char.ofNat_toNat] at h3
          rw [hcd, ih ds h2]

theorem textHash_inj (s t : String) (h : textHash s = textHash t) : s = t := by
  cases s with
  | mk a =>
      cases t with
      | mk b =>
          unfold textHash at h
          have : a = b := encodeChars_inj a b h
          rw [this]

/-! ## The accept path of `add_text` -/

theorem firstNonPinned_eq_head (l : List ClipboardItem) :
    firstNonPinned l = (nonPinnedList l).head? := by
  induction l with
  | nil => rfl
  | cons x xs ih =>
      unfold firstNonPinned nonPinnedList at ih ⊢
      rcases hx : notPinned x with _ | _
      · rw [List.find?_cons_of_neg xs (by rw [hx]; exact Bool.false_ne_true),
          List.filter_cons_of_neg (by rw [hx]; exact Bool.false_ne_true)]
        exact ih
      · rw [List.find?_cons_of_pos xs hx, List.filter_cons_of_pos hx]
        rfl

theorem addText_accepts (m : ClipboardManager) (t : String)
    (h1 : isBlank t = false) (h2 : ¬m.last_added_text_hash = some (textHash t))
    (h3 : ¬m.last_pasted_text = some t)
    (h4 : ∀ it, firstNonPinned m.history = some it → isTextEq it t = false)
    (h5 : previewOk t = true) :
    ∃ it m', addText m t = PanicOr.ok (some it, m') := by
  obtain ⟨item, hni⟩ := newText_isSome m.counter t h5
  have haccept : ∃ m', addTextAccept m t (textHash t) = PanicOr.ok (some item, m') := by
    unfold addTextAccept
    rcases dupIdx m.history t with _ | pos
    · rw [hni]
      exact ⟨_, rfl⟩
    · rw [hni]
      exact ⟨_, rfl⟩
  obtain ⟨m', hacc⟩ := haccept
  refine ⟨item, m', ?_⟩
  unfold addText
  rw [if_neg (by rw [h1]; exact Bool.false_ne_true)]
  dsimp only
  rw [if_neg h2, if_neg h3]
  rcases hfn : firstNonPinned m.history with _ | it
  · exact hacc
  · have hf := h4 it hfn
    dsimp only
    rw [if_neg (by rw [hf]; exact Bool.false_ne_true)]
    exact hacc

theorem acceptedText_spec (m : ClipboardManager) (y : String)
    (h : acceptedText m y = true) :
    ∃ it m', addText m y = PanicOr.ok (some it, m') ∧ addTextRun m y = m' := by
  unfold acceptedText at h
  unfold addTextRun
  rcases hres : addText m y with _ | ⟨r, m'⟩
  · rw [hres] at h
    simp at h
  · rw [hres] at h
    rcases r with _ | it
    · simp at h
    · exact ⟨it, m', rfl, rfl⟩

theorem addText_accept_fields (m : ClipboardManager) (y : String) (it : ClipboardItem)
    (m' : ClipboardManager) (h : addText m y = PanicOr.ok (some it, m')) :
    m'.last_pasted_text = m.last_pasted_text ∧
    m'.last_added_text_hash = some (textHash y) ∧
    it.pinned = false ∧ it.content = ClipboardContent.text y ∧
    (∀ z, firstNonPinned m'.history = some z → z = it) := by
  rcases addText_shape m y with hsh | ⟨mm, hsh, _, _⟩ | ⟨item, hist1, hnew, hh1, hsh⟩
  · rw [hsh] at h
    exact PanicOr.noConfusion h
  · rw [hsh] at h
    simp at h
  · rw [hsh] at h
    simp only [PanicOr.ok.injEq, Prod.mk.injEq, Option.some.injEq] at h
    obtain ⟨hit, hm'⟩ := h
    subst hit
    subst hm'
    obtain ⟨_, _, hpin, hcont⟩ := newText_fields m.counter y item hnew
    refine ⟨rfl, rfl, hpin, hcont, ?_⟩
    intro z hz
    dsimp only at hz
    rw [insertItem_def, firstNonPinned_eq_head] at hz
    rw [(trim_spec _ _ (Nat.le_refl _)).2.2.1] at hz
    rw [nonPinnedList_insertAt_pos hist1 item hpin] at hz
    rcases hk : (nonPinnedList (trimLoop (insertAt hist1 (insertPos hist1) item).length
        (insertAt hist1 (insertPos hist1) item))).length with _ | k
    · rw [hk] at hz
      simp at hz
    · rw [hk] at hz
      simp only [List.take_succ_cons, List.head?_cons, Option.some.injEq] at hz
      exact hz.symm

/-! ## Partitioning a history into pinned and non-pinned items -/

theorem pinned_partition (l : List ClipboardItem) :
    (nonPinnedList l).length + (pinnedList l).length = l.length := by
  induction l with
  | nil => rfl
  | cons x xs ih =>
      unfold nonPinnedList pinnedList at ih ⊢
      rw [List.filter_cons, List.filter_cons]
      rcases hx : x.pinned with _ | _
      · have h1 : notPinned x = true := by simp [notPinned, hx]
        rw [if_pos h1, if_neg (by exact Bool.false_ne_true)]
        simp only [List.length_cons]
        omega
      · have h1 : notPinned x = false := by simp [notPinned, hx]
        rw [if_neg (by rw [h1]; exact Bool.false_ne_true), if_pos (by rfl)]
        simp only [List.length_cons]
        omega

/-! ## The rejection of self-pasted text -/

theorem addText_paste_reject (m : ClipboardManager) (t : String)
    (h1 : isBlank t = false) (h2 : ¬m.last_added_text_hash = some (textHash t))
    (h3 : m.last_pasted_text = some t) :
    addText m t = PanicOr.ok (none, { m with last_pasted_text := none }) := by
  unfold addText
  rw [if_neg (by rw [h1]; exact Bool.false_ne_true)]
  dsimp only
  rw [if_neg h2, if_pos h3]

/-! ## Byte layout of the `input_event` record -/

theorem makeEvent_eq (t c : Nat) (v : Int) :
    makeEvent t c v
      = [0, 0, 0, 0, 0, 0, 0, 0, 0, 0, 0, 0, 0, 0, 0, 0,
         t % 256, t / 256 % 256, c % 256, c / 256 % 256,
         (v % 4294967296).toNat % 256, (v % 4294967296).toNat / 256 % 256,
         (v % 4294967296).toNat / 65536 % 256,
         (v % 4294967296).toNat / 16777216 % 256] := rfl

theorem decodeU16_drop16 (t c : Nat) (v : Int) (ht : t < 65536) :
    decodeU16 ((makeEvent t c v).drop 16) = t := by
  have h : decodeU16 ((makeEvent t c v).drop 16) = t % 256 + 256 * (t / 256 % 256) := rfl
  rw [h]
  omega

theorem decodeU16_drop18 (t c : Nat) (v : Int) (hc : c < 65536) :
    decodeU16 ((makeEvent t c v).drop 18) = c := by
  have h : decodeU16 ((makeEvent t c v).drop 18) = c % 256 + 256 * (c / 256 % 256) := rfl
  rw [h]
  omega

theorem decodeI32_drop20 (t c : Nat) (v : Int)
    (hv1 : -2147483648 ≤ v) (hv2 : v < 2147483648) :
    decodeI32 ((makeEvent t c v).drop 20) = v := by
  have hu1 : (0 : Int) ≤ v % 4294967296 := Int.emod_nonneg v (by norm_num)
  have hu2 : v % 4294967296 < 4294967296 := Int.emod_lt_of_pos v (by norm_num)
  have hu3 : ((v % 4294967296).toNat : Int) = v % 4294967296 := Int.toNat_of_nonneg hu1
  have hu4 : (v % 4294967296).toNat < 4294967296 := by omega
  have h : decodeI32 ((makeEvent t c v).drop 20)
      = (if (v % 4294967296).toNat % 256 + 256 * ((v % 4294967296).toNat / 256 % 256)
            + 65536 * ((v % 4294967296).toNat / 65536 % 256)
            + 16777216 * ((v % 4294967296).toNat / 16777216 % 256) < 2147483648
         then (((v % 4294967296).toNat % 256 + 256 * ((v % 4294967296).toNat / 256 % 256)
            + 65536 * ((v % 4294967296).toNat / 65536 % 256)
            + 16777216 * ((v % 4294967296).toNat / 16777216 % 256) : Nat) : Int)
         else (((v % 4294967296).toNat % 256 + 256 * ((v % 4294967296).toNat / 256 % 256)
            + 65536 * ((v % 4294967296).toNat / 65536 % 256)
            + 16777216 * ((v % 4294967296).toNat / 16777216 % 256) : Nat) : Int)
              - 4294967296) := rfl
  rw [h]
  have harith : (v % 4294967296).toNat % 256 + 256 * ((v % 4294967296).toNat / 256 % 256)
      + 65536 * ((v % 4294967296).toNat / 65536 % 256)
      + 16777216 * ((v % 4294967296).toNat / 16777216 % 256) = (v % 4294967296).toNat := by
    omega
  rw [harith]
  split
  · omega
  · omega

/-! ## Claim theorems -/

/-- C1 (amended): for every manager state reachable from a new
`ClipboardManager` by any sequence of the public operations in which
`toggle_pin` is only ever applied to a currently non-pinned item (i.e. it
is used to pin, never to unpin), no two non-pinned items in history hold
identical text content. -/
theorem spec_C1_amended (m : ClipboardManager) (h : ReachPinOnly m) :
    (textsNP m.history).Nodup :=
  reach_pin_only_dedup_inv m h

/-- Witness for C1: the invariant, instantiated at the initial state. -/
theorem spec_C1_witness : (textsNP ClipboardManager.new.history).Nodup :=
  spec_C1_amended ClipboardManager.new ReachPinOnly.init

/-- Counterexample to C1 as stated: the state reached by
`add_text "a"`, `toggle_pin` (pin the "a" item), `add_text "b"`,
`add_text "a"` (accepted: the only "a" item is pinned), `toggle_pin`
(unpin) is reachable by public operations yet holds two non-pinned items
with text "a". -/
theorem spec_C1_cex : Reach stA5 ∧ ¬(textsNP stA5.history).Nodup := by
  constructor
  · exact Reach.rToggle stA4 0 (Reach.rAddText stA3 "a" (Reach.rAddText stA2 "b"
      (Reach.rToggle stA1 0 (Reach.rAddText ClipboardManager.new "a" Reach.init))))
  · have h : textsNP stA5.history = ["a", "b", "a"] := by decide
    rw [h]
    intro hnd
    rw [List.nodup_cons] at hnd
    exact hnd.1 (by simp)

/-- C2: in every reachable state the number of non-pinned items is at most
the capacity 50, and an insertion (`add_text` or `add_image`) never removes
a pinned item — the ordered sequence of pinned items is preserved exactly. -/
theorem spec_C2 :
    (∀ m, Reach m → (nonPinnedList m.history).length ≤ MAX_HISTORY_SIZE) ∧
    (∀ m t, pinnedList (addTextRun m t).history = pinnedList m.history) ∧
    (∀ m bytes w h hash enc,
      pinnedList (addImageRun m bytes w h hash enc).history = pinnedList m.history) := by
  refine ⟨?_, pinnedList_addTextRun, pinnedList_addImageRun⟩
  intro m hm
  have h1 := (reach_basic_inv m hm).1
  have h2 : (nonPinnedList m.history).length ≤ m.history.length :=
    List.length_filter_le _ _
  omega

/-- Witness for C2: instantiated at the state after one `add_text` and at
concrete insertion calls. -/
theorem spec_C2_witness :
    (nonPinnedList stA1.history).length ≤ MAX_HISTORY_SIZE ∧
    pinnedList (addTextRun stA1 "b").history = pinnedList stA1.history ∧
    pinnedList (addImageRun stA1 [] 1 1 5 none).history = pinnedList stA1.history :=
  ⟨spec_C2.1 stA1 (Reach.rAddText ClipboardManager.new "a" Reach.init),
   spec_C2.2.1 stA1 "b",
   spec_C2.2.2 stA1 [] 1 1 5 none⟩

/-- C3 (amended): after the insertion step of `insert_item`, the eviction
loop removes the least-recent (closest to the tail) non-pinned item while
the *total* number of items exceeds the capacity 50 (not while the
non-pinned count exceeds it), and stops without removing anything once no
non-pinned item remains: the result is a sublist of the inserted list, the
pinned items are preserved exactly, the surviving non-pinned items are an
initial segment of the inserted non-pinned sequence, nothing is evicted
when the total length is at most 50, the loop ends with total length at
most 50 or every item pinned, and the final length is exactly
`max (min (n+1) 50) ((n+1) - #nonPinned)`. -/
theorem spec_C3_amended (l : List ClipboardItem) (x : ClipboardItem) :
    ((insertAt l (insertPos l) x).length ≤ MAX_HISTORY_SIZE →
      insertItem l x = insertAt l (insertPos l) x) ∧
    (nonPinnedList (insertAt l (insertPos l) x) = [] →
      insertItem l x = insertAt l (insertPos l) x) ∧
    (insertItem l x).Sublist (insertAt l (insertPos l) x) ∧
    pinnedList (insertItem l x) = pinnedList (insertAt l (insertPos l) x) ∧
    nonPinnedList (insertItem l x)
      = (nonPinnedList (insertAt l (insertPos l) x)).take (nonPinnedList (insertItem l x)).length ∧
    ((insertItem l x).length ≤ MAX_HISTORY_SIZE ∨ nonPinnedList (insertItem l x) = []) ∧
    (insertItem l x).length
      = max (min (insertAt l (insertPos l) x).length MAX_HISTORY_SIZE)
          ((insertAt l (insertPos l) x).length
            - (nonPinnedList (insertAt l (insertPos l) x)).length) := by
  obtain ⟨h1, h2, h3, h4, h5, h6⟩ :=
    trim_spec (insertAt l (insertPos l) x).length (insertAt l (insertPos l) x) (Nat.le_refl _)
  rw [insertItem_def]
  refine ⟨h4, h5, h1, h2, h3, ?_, h6⟩
  by_cases hle : (trimLoop (insertAt l (insertPos l) x).length
      (insertAt l (insertPos l) x)).length ≤ MAX_HISTORY_SIZE
  · exact Or.inl hle
  · refine Or.inr (List.length_eq_zero.mp ?_)
    have hpart1 := pinned_partition
      (trimLoop (insertAt l (insertPos l) x).length (insertAt l (insertPos l) x))
    have hpart2 := pinned_partition (insertAt l (insertPos l) x)
    have hpl := congrArg List.length h2
    simp only [MAX_HISTORY_SIZE] at h6 hle
    omega

/-- Witness for C3: on an empty history nothing is trimmed. -/
theorem spec_C3_witness :
    insertItem [] freshItemY = insertAt [] (insertPos []) freshItemY ∧
    (insertItem [] freshItemY).Sublist (insertAt [] (insertPos []) freshItemY) :=
  ⟨(spec_C3_amended [] freshItemY).1 (by decide),
   (spec_C3_amended [] freshItemY).2.2.1⟩

/-- Counterexample to C3 as stated: inserting a fresh non-pinned item into
a history of 50 pinned items leaves only one non-pinned item (well below
the capacity 50), yet the loop evicts it, because the loop tests the total
length, not the non-pinned count. -/
theorem spec_C3_cex :
    (nonPinnedList (insertAt (List.replicate 50 pinnedItemX)
      (insertPos (List.replicate 50 pinnedItemX)) freshItemY)).length ≤ MAX_HISTORY_SIZE ∧
    insertItem (List.replicate 50 pinnedItemX) freshItemY
      ≠ insertAt (List.replicate 50 pinnedItemX)
          (insertPos (List.replicate 50 pinnedItemX)) freshItemY := by
  decide

/-- C4 (amended): the insertion step places the new item immediately
before the first non-pinned item, leaving the pinned items before that
position untouched; when every item in history is pinned the new item is
placed at the *front* (index 0), not at the end. -/
theorem spec_C4_amended (l : List ClipboardItem) (x : ClipboardItem) :
    (∀ j, firstIdxWhere notPinned l = some j →
      insertAt l (insertPos l) x = l.take j ++ x :: l.drop j ∧
      (insertAt l (insertPos l) x).take j = l.take j) ∧
    (firstIdxWhere notPinned l = none → insertAt l (insertPos l) x = x :: l) := by
  constructor
  · intro j hj
    have hpos : insertPos l = j := by
      unfold insertPos
      rw [hj]
      rfl
    have hlt : j < l.length := firstIdxWhere_some_lt notPinned l j hj
    constructor
    · rw [hpos]
      rfl
    · rw [hpos]
      unfold insertAt
      have hlen : (l.take j).length = j := by
        rw [List.length_take]
        omega
      have h2 := List.take_left (l.take j) (x :: l.drop j)
      rw [hlen] at h2
      exact h2
  · intro hnone
    have hpos : insertPos l = 0 := by
      unfold insertPos
      rw [hnone]
      rfl
    rw [hpos]
    unfold insertAt
    rfl

/-- Witness for C4: insertion before the first non-pinned item of
`[freshItemY]`, and front insertion into the all-pinned `[pinnedItemX]`. -/
theorem spec_C4_witness :
    (insertAt [freshItemY] (insertPos [freshItemY]) pinnedItemX
        = List.take 0 [freshItemY] ++ pinnedItemX :: List.drop 0 [freshItemY] ∧
      (insertAt [freshItemY] (insertPos [freshItemY]) pinnedItemX).take 0
        = List.take 0 [freshItemY]) ∧
    insertAt [pinnedItemX] (insertPos [pinnedItemX]) freshItemY
      = freshItemY :: [pinnedItemX] :=
  ⟨(spec_C4_amended [freshItemY] pinnedItemX).1 0 rfl,
   (spec_C4_amended [pinnedItemX] freshItemY).2 rfl⟩

/-- Counterexample to C4 as stated: with an all-pinned history the code
inserts at the front (`.position(..).unwrap_or(0)`), not at the end as
the claim says. -/
theorem spec_C4_cex :
    insertItem [pinnedItemX] freshItemY = [freshItemY, pinnedItemX] ∧
    insertItem [pinnedItemX] freshItemY ≠ [pinnedItemX] ++ [freshItemY] := by
  decide

/-- C5 is a code bug: the top-of-history image dedup compares by substring
on the preview text, so an incoming hash whose decimal rendering is a
prefix of the stored hash's rendering is wrongly rejected.  Here the top
item stores hash 123 (preview `"Image (1x1) #123"`), the incoming hash is
12 ≠ 123, and `add_image` still returns none with no insertion. -/
theorem spec_C5_bug :
    imgItem123.preview = "Image (1x1) #123" ∧
    imgItem123.pinned = false ∧
    (123 : Nat) ≠ 12 ∧
    addImage mImg123 [] 1 1 12 none = PanicOr.ok (none, mImg123) := by
  decide

/-- C6 (amended): text self-paste suppression is single-use, *provided*
the burst-suppression hash does not already match the pasted text when the
poller re-observes it (`last_added_text_hash ≠ hash(t)`; otherwise the
burst check fires first and does not consume the suppression), and the
text's preview construction does not panic (see C8).  After
`mark_as_pasted(x)`, the next `add_text` of `x`'s text returns none,
clears the suppression, leaves history unchanged, and after any accepted
ingestion of different content a later `add_text` of `x`'s text is
accepted again. -/
theorem spec_C6_amended (m : ClipboardManager) (x : ClipboardItem) (t y : String)
    (hxc : x.content = ClipboardContent.text t)
    (hblank : isBlank t = false) (hprev : previewOk t = true)
    (hhash : ¬m.last_added_text_hash = some (textHash t))
    (hyt : ¬y = t)
    (hacc : acceptedText (addTextRun (markAsPasted m x) t) y = true) :
    rejectedText (markAsPasted m x) t = true ∧
    (addTextRun (markAsPasted m x) t).last_pasted_text = none ∧
    (addTextRun (markAsPasted m x) t).history = m.history ∧
    acceptedText (addTextRun (addTextRun (markAsPasted m x) t) y) t = true := by
  have hm1 : markAsPasted m x
      = { m with last_pasted_text := some t, last_pasted_image_hash := none } := by
    unfold markAsPasted
    rw [hxc]
  have hrej : addText (markAsPasted m x) t
      = PanicOr.ok (none, { (markAsPasted m x) with last_pasted_text := none }) := by
    apply addText_paste_reject _ _ hblank
    · rw [hm1]
      exact hhash
    · rw [hm1]
  have hm2 : addTextRun (markAsPasted m x) t
      = { (markAsPasted m x) with last_pasted_text := none } := by
    unfold addTextRun
    rw [hrej]
  refine ⟨?_, ?_, ?_, ?_⟩
  · unfold rejectedText
    rw [hrej]
  · rw [hm2]
  · rw [hm2, hm1]
  · obtain ⟨yi, m3, haddy, hruny⟩ := acceptedText_spec _ y hacc
    obtain ⟨hp3, hh3, hpin3, hcont3, hfirst3⟩ := addText_accept_fields _ y yi m3 haddy
    have hgoal2 : ¬m3.last_added_text_hash = some (textHash t) := by
      rw [hh3]
      intro he
      simp only [Option.some.injEq] at he
      exact hyt (textHash_inj y t he)
    have hgoal3 : ¬m3.last_pasted_text = some t := by
      rw [hp3, hm2]
      simp
    have hgoal4 : ∀ it, firstNonPinned m3.history = some it → isTextEq it t = false := by
      intro it hit
      have heq := hfirst3 it hit
      subst heq
      have hred : isTextEq it t = decide (y = t) := by
        unfold isTextEq
        rw [hcont3]
      rw [hred]
      exact decide_eq_false hyt
    obtain ⟨it4, m4, h4⟩ := addText_accepts m3 t hblank hgoal2 hgoal3 hgoal4 hprev
    rw [hruny]
    unfold acceptedText
    rw [h4]

/-- Witness for C6: paste `itemA` (text "a") on a fresh manager, observe
the single-use suppression, then "b", then "a" accepted again. -/
theorem spec_C6_witness :
    rejectedText (markAsPasted ClipboardManager.new itemA) "a" = true ∧
    (addTextRun (markAsPasted ClipboardManager.new itemA) "a").last_pasted_text = none ∧
    (addTextRun (markAsPasted ClipboardManager.new itemA) "a").history
      = ClipboardManager.new.history ∧
    acceptedText (addTextRun (addTextRun (markAsPasted ClipboardManager.new itemA) "a") "b")
      "a" = true :=
  spec_C6_amended ClipboardManager.new itemA "a" "b" rfl (by decide) (by decide)
    (by simp [ClipboardManager.new]) (by decide) (by decide)

/-- Counterexample to C6 as stated: when `x`'s text was the most recently
ingested text, re-observing it after `paste_item(x)` is rejected by the
*burst* check, which does not consume `last_pasted_text`; after an
unrelated accepted ingestion ("b"), the next `add_text "a"` is then
rejected by the still-armed paste suppression instead of returning a new
item. -/
theorem spec_C6_cex :
    itemA ∈ stA1.history ∧
    itemA.content = ClipboardContent.text "a" ∧
    rejectedText stB1 "a" = true ∧
    acceptedText stB2 "b" = true ∧
    ¬("b" : String) = "a" ∧
    rejectedText stB3 "a" = true ∧
    acceptedText stB3 "a" = false := by
  decide

/-- C7 is a code bug: when the pixel buffer is shorter than `4*w*h`,
`RgbaImage::from_raw(..).unwrap()` panics instead of rejecting; the claim
("never fails in any other way, including when the pixel buffer length
does not equal 4*w*h") is the spec's stated intent ("ingestion functions
never raise").  The encoding-failure half of the claim does hold: with a
well-sized buffer and a failing encoder the call returns none with the
state unchanged. -/
theorem spec_C7_bug :
    addImage ClipboardManager.new [] 1 1 5 (some "x") = PanicOr.panic ∧
    ([] : List Nat).length < 4 * 1 * 1 ∧
    addImage ClipboardManager.new [0, 0, 0, 0] 1 1 5 none
      = PanicOr.ok (none, ClipboardManager.new) := by
  decide

/-- C8 is a code bug: `new_text` measures `text.len() > 100` in *bytes*
and slices `&text[..100]` at a byte offset.  On `bad51` (49 two-byte
characters and one three-byte character, 101 bytes) byte 100 is not a
character boundary and the slice panics; on `eta51` (51 two-byte
characters, within the claimed 100-character limit) the preview is
truncated instead of equalling the text. -/
theorem spec_C8_bug :
    newText 0 bad51 = none ∧
    utf8Len bad51.data = 101 ∧
    eta51.length ≤ 100 ∧
    (newText 0 eta51).map (fun it => it.preview) ≠ some eta51 := by
  decide

/-- C9: the virtual-input event record built by `make_event` is exactly
24 bytes, bytes 0–15 are zero, bytes 16–17 decode (little-endian, the
native order of the x86_64 target the source documents) to the event
type, bytes 18–19 to the key/sync code, and bytes 20–23 to the signed
32-bit value; in the emitted paste sequence presses carry value 1,
releases 0, and sync reports 0. -/
theorem spec_C9 (t c : Nat) (v : Int) (ht : t < 65536) (hc : c < 65536)
    (hv1 : -2147483648 ≤ v) (hv2 : v < 2147483648) :
    (makeEvent t c v).length = 24 ∧
    (makeEvent t c v).take 16 = List.replicate 16 0 ∧
    decodeU16 ((makeEvent t c v).drop 16) = t ∧
    decodeU16 ((makeEvent t c v).drop 18) = c ∧
    decodeI32 ((makeEvent t c v).drop 20) = v ∧
    pasteEvents.map (fun e => decodeU16 (e.drop 16))
      = [EV_KEY, EV_SYN, EV_KEY, EV_SYN, EV_KEY, EV_SYN, EV_KEY, EV_SYN] ∧
    pasteEvents.map (fun e => decodeU16 (e.drop 18))
      = [KEY_LEFTCTRL, SYN_REPORT, KEY_V, SYN_REPORT,
         KEY_V, SYN_REPORT, KEY_LEFTCTRL, SYN_REPORT] ∧
    pasteEvents.map (fun e => decodeI32 (e.drop 20)) = [1, 0, 1, 0, 0, 0, 0, 0] :=
  ⟨rfl, rfl, decodeU16_drop16 t c v ht, decodeU16_drop18 t c v hc,
   decodeI32_drop20 t c v hv1 hv2, by decide, by decide, by decide⟩

/-- Witness for C9: the layout at the concrete press-Ctrl event
(type `EV_KEY = 1`, code `KEY_LEFTCTRL = 29`, value 1). -/
theorem spec_C9_witness :
    (makeEvent 1 29 1).length = 24 ∧
    (makeEvent 1 29 1).take 16 = List.replicate 16 0 ∧
    decodeU16 ((makeEvent 1 29 1).drop 16) = 1 ∧
    decodeU16 ((makeEvent 1 29 1).drop 18) = 29 ∧
    decodeI32 ((makeEvent 1 29 1).drop 20) = 1 ∧
    pasteEvents.map (fun e => decodeU16 (e.drop 16))
      = [EV_KEY, EV_SYN, EV_KEY, EV_SYN, EV_KEY, EV_SYN, EV_KEY, EV_SYN] ∧
    pasteEvents.map (fun e => decodeU16 (e.drop 18))
      = [KEY_LEFTCTRL, SYN_REPORT, KEY_V, SYN_REPORT,
         KEY_V, SYN_REPORT, KEY_LEFTCTRL, SYN_REPORT] ∧
    pasteEvents.map (fun e => decodeI32 (e.drop 20)) = [1, 0, 1, 0, 0, 0, 0, 0] :=
  spec_C9 1 29 1 (by decide) (by decide) (by decide) (by decide)

/-- C10 (amended): in a reachable state, when `add_text t` is accepted and
`x` is the *unique* non-pinned item holding text `t` (uniqueness holds in
particular in every state reachable without unpinning, by C1), the
returned item carries an id and timestamp distinct from `x`'s and from
every id in the pre-state history, and `x`'s id no longer appears in the
new history: move-to-front replaces the item rather than relocating it. -/
theorem spec_C10_amended (m m' : ClipboardManager) (x it : ClipboardItem) (t : String)
    (hreach : Reach m)
    (hmem : x ∈ m.history) (hpin : x.pinned = false)
    (hcont : x.content = ClipboardContent.text t)
    (huniq : ∀ y ∈ m.history, y.pinned = false → y.content = ClipboardContent.text t → y = x)
    (hadd : addText m t = PanicOr.ok (some it, m')) :
    it.id ∉ idsOf m.history ∧ it.id ≠ x.id ∧ it.timestamp ≠ x.timestamp ∧
    x.id ∉ idsOf m'.history := by
  obtain ⟨hlen, hnd, hbound⟩ := reach_basic_inv m hreach
  rcases addText_shape m t with hsh | ⟨mm, hsh, _, _⟩ | ⟨item, hist1, hnew, hh1, hsh⟩
  · rw [hsh] at hadd
    exact PanicOr.noConfusion hadd
  · rw [hsh] at hadd
    simp at hadd
  · rw [hsh] at hadd
    simp only [PanicOr.ok.injEq, Prod.mk.injEq, Option.some.injEq] at hadd
    obtain ⟨hit, hm'⟩ := hadd
    subst hit
    obtain ⟨hid, hts, _, _⟩ := newText_fields m.counter t item hnew
    have hxb := hbound x hmem
    refine ⟨?_, ?_, ?_, ?_⟩
    · intro hcmem
      rcases List.mem_map.mp hcmem with ⟨y, hy, hyid⟩
      have h3 := (hbound y hy).1
      rw [hyid, hid] at h3
      omega
    · rw [hid]
      omega
    · rw [hts]
      omega
    · rcases hh1 with ⟨hdup, hhe⟩ | ⟨pos, hp, hhe⟩
      · exact absurd hdup (dupIdx_isSome_of_mem m.history t x hmem hpin hcont)
      · subst hhe
        have hxnot : x.id ∉ idsOf (m.history.eraseIdx pos) :=
          dupIdx_erase_id_not_mem m.history t pos x hnd hp huniq hmem hpin hcont
        rw [← hm']
        intro hcmem
        rcases List.mem_map.mp hcmem with ⟨y, hy, hyid⟩
        dsimp only at hy
        rcases mem_insertItem _ item y hy with rfl | hy2
        · rw [hid] at hyid
          omega
        · exact hxnot (List.mem_map.mpr ⟨y, hy2, hyid⟩)

/-- Witness for C10: in the reachable state `stA4` (history
`[a(id 2), b(id 1), a(id 0, pinned)]`) the accepted `add_text "b"` creates
the fresh id 3 and removes the old id 1 from history. -/
theorem spec_C10_witness :
    (3 : Nat) ∉ idsOf stA4.history ∧ (3 : Nat) ≠ (1 : Nat) ∧ (3 : Nat) ≠ (1 : Nat) ∧
    (1 : Nat) ∉ idsOf
      ({ history :=
           [{ id := 3, content := ClipboardContent.text "b", timestamp := 3,
              pinned := false, preview := "b" },
            { id := 2, content := ClipboardContent.text "a", timestamp := 2,
              pinned := false, preview := "a" },
            { id := 0, content := ClipboardContent.text "a", timestamp := 0,
              pinned := true, preview := "a" }],
         last_pasted_text := none, last_pasted_image_hash := none,
         last_added_text_hash := some 99, counter := 4 } : ClipboardManager).history :=
  spec_C10_amended stA4 _
    { id := 1, content := ClipboardContent.text "b", timestamp := 1, pinned := false,
      preview := "b" }
    { id := 3, content := ClipboardContent.text "b", timestamp := 3, pinned := false,
      preview := "b" }
    "b"
    (Reach.rAddText stA3 "a" (Reach.rAddText stA2 "b"
      (Reach.rToggle stA1 0 (Reach.rAddText ClipboardManager.new "a" Reach.init))))
    (by decide) (by decide) rfl (by decide) (by decide)

/-- Counterexample to C10 as stated: in the reachable state `stA6`
(obtained via an unpin, so two non-pinned items hold "a"), `add_text "a"`
is accepted and moves the *first* duplicate to the top, while the deeper
non-pinned duplicate `itemA` (id 0) keeps its id in history — so "the old
item's id no longer appears anywhere in history" fails. -/
theorem spec_C10_cex :
    Reach stA6 ∧
    (itemA ∈ stA6.history ∧ itemA.pinned = false ∧
     itemA.content = ClipboardContent.text "a" ∧
     acceptedText stA6 "a" = true ∧
     itemA.id ∈ idsOf (addTextRun stA6 "a").history) := by
  constructor
  · exact Reach.rAddText stA5 "c" (Reach.rToggle stA4 0 (Reach.rAddText stA3 "a"
      (Reach.rAddText stA2 "b" (Reach.rToggle stA1 0
        (Reach.rAddText ClipboardManager.new "a" Reach.init)))))
  · decide
